import Mathlib

/-!
Verification development for the Hansard PDF debate-extraction pipeline
(`extract_debates.py`).  Strings are modelled as `List Char`; the Python
regular-expression operations used by the pipeline are translated into
explicit recursive scanners with the same matching and backtracking order.
Character classes (`\w`, `\s`, `str.lower`, `str.strip`) are modelled over
the ASCII range, which covers every character class test the pipeline's
patterns perform on ASCII input.
-/

/-- Strings of the pipeline, modelled as lists of characters. -/
abbrev Str := List Char

/-- Python `\s` (ASCII range): space, tab, newline, carriage return, vertical tab, form feed. -/
def isPySpace (c : Char) : Bool :=
  c = ' ' || c = '\t' || c = '\n' || c = '\x0d' || c = '\x0b' || c = '\x0c'

/-- Python `\w` (ASCII range): letters, digits and underscore. -/
def isWordChar (c : Char) : Bool :=
  c.isAlphanum || c = '_'

/-- Characters matched by the class `[ \t]` of `extract_text_blocks`. -/
def isBlank (c : Char) : Bool :=
  c = ' ' || c = '\t'

/-- Drop trailing characters satisfying `p` (the right half of Python `str.strip`). -/
def dropTrailingP (p : Char → Bool) : Str → Str
  | [] => []
  | c :: rest =>
    match dropTrailingP p rest with
    | [] => if p c then [] else [c]
    | r => c :: r

/-- Python `str.strip(chars)`: remove the characters satisfying `p` from both ends. -/
def stripBoth (p : Char → Bool) (l : Str) : Str :=
  dropTrailingP p (List.dropWhile p l)

/-- Python `str.strip()` with its default whitespace set. -/
def pyStrip (l : Str) : Str :=
  stripBoth isPySpace l

theorem dropWhileLengthLe (p : Char → Bool) (l : Str) :
    (l.dropWhile p).length ≤ l.length := by
  induction l with
  | nil => simp [List.dropWhile]
  | cons c rest ih =>
    rw [List.dropWhile]
    cases p c with
    | true => simp only [List.length_cons]; omega
    | false => simp

/-- State of the `[ \t]+` scan: whether we are inside a blank run whose
single replacement space has already been emitted. -/
def collapseBlanksAux : Bool → Str → Str
  | _, [] => []
  | inRun, c :: rest =>
    if isBlank c then
      if inRun then collapseBlanksAux true rest
      else ' ' :: collapseBlanksAux true rest
    else c :: collapseBlanksAux false rest

/-- Embeds `re.sub(r"[ \t]+", " ", whole)` from `extract_text_blocks`: every
maximal run of spaces and tabs is replaced by a single space. -/
def collapseBlanks (l : Str) : Str :=
  collapseBlanksAux false l

/-- Embeds `re.sub(r"(\w)-\n(\w)", r"\1\2", whole)` from `extract_text_blocks`:
the left-to-right non-overlapping scan of `re.sub`, joining `<letter>-\n<letter>`
into `<letter><letter>`. -/
def repairHyphenBreaks : Str → Str
  | a :: '-' :: '\n' :: b :: rest2 =>
    if isWordChar a && isWordChar b then a :: b :: repairHyphenBreaks rest2
    else a :: repairHyphenBreaks ('-' :: '\n' :: b :: rest2)
  | a :: rest => a :: repairHyphenBreaks rest
  | [] => []

/-- The text normalization applied to the joined page text inside
`extract_text_blocks`: whitespace collapse followed by hyphenation-break repair. -/
def normalize_text (l : Str) : Str :=
  repairHyphenBreaks (collapseBlanks l)

/-- Decides whether the pattern `(\w)-\n(\w)` matches anywhere in the string,
scanning the same positions `re.sub` would scan. -/
def hasHyphenBreak : Str → Bool
  | a :: '-' :: '\n' :: b :: rest2 =>
    (isWordChar a && isWordChar b) || hasHyphenBreak ('-' :: '\n' :: b :: rest2)
  | _ :: rest => hasHyphenBreak rest
  | [] => false

/-- The paragraph marker " <PARA> " inserted by `collapse_paragraphs`. -/
def paraMark : Str := [' ', '<', 'P', 'A', 'R', 'A', '>', ' ']

/-- State of a run-collapsing scan: outside a run, holding one pending run
character, or inside a run whose replacement has been emitted. -/
inductive RunMode where
  | norm : RunMode
  | pend : RunMode
  | skip : RunMode
deriving Repr, DecidableEq

/-- The `\n{2,}` scan: `pend` holds one newline not yet known to start a run. -/
def collapseNlRunsAux : RunMode → Str → Str
  | .norm, [] => []
  | .pend, [] => ['\n']
  | .skip, [] => []
  | .norm, c :: rest =>
    if c = '\n' then collapseNlRunsAux .pend rest else c :: collapseNlRunsAux .norm rest
  | .pend, c :: rest =>
    if c = '\n' then paraMark ++ collapseNlRunsAux .skip rest
    else '\n' :: c :: collapseNlRunsAux .norm rest
  | .skip, c :: rest =>
    if c = '\n' then collapseNlRunsAux .skip rest else c :: collapseNlRunsAux .norm rest

/-- Embeds `re.sub(r"\n{2,}", " <PARA> ", t)`: every maximal run of two or more
newlines becomes the paragraph marker; single newlines are kept. -/
def collapseNlRuns (l : Str) : Str :=
  collapseNlRunsAux .norm l

/-- Embeds `re.sub(r"\n", " ", t)`: replace every newline by a space. -/
def nlToSpace (l : Str) : Str :=
  l.map (fun c => if c = '\n' then ' ' else c)

/-- State of the `\s{2,}` scan: outside a run, holding one pending whitespace
character not yet known to start a run, or inside a run whose single
replacement space has been emitted. -/
inductive WsMode where
  | norm : WsMode
  | pend : Char → WsMode
  | skip : WsMode
deriving Repr, DecidableEq

/-- The `\s{2,}` scan. -/
def collapseWsRunsAux : WsMode → Str → Str
  | .norm, [] => []
  | .pend w, [] => [w]
  | .skip, [] => []
  | .norm, c :: rest =>
    if isPySpace c then collapseWsRunsAux (.pend c) rest
    else c :: collapseWsRunsAux .norm rest
  | .pend w, c :: rest =>
    if isPySpace c then ' ' :: collapseWsRunsAux .skip rest
    else w :: c :: collapseWsRunsAux .norm rest
  | .skip, c :: rest =>
    if isPySpace c then collapseWsRunsAux .skip rest
    else c :: collapseWsRunsAux .norm rest

/-- Embeds `re.sub(r"\s{2,}", " ", t)`: every maximal run of two or more
whitespace characters becomes a single space; single whitespace characters
are kept as they are. -/
def collapseWsRuns (l : Str) : Str :=
  collapseWsRunsAux .norm l

/-- Embeds `collapse_paragraphs` of `extract_debates.py`. -/
def collapse_paragraphs (t : Str) : Str :=
  pyStrip (collapseWsRuns (nlToSpace (collapseNlRuns t)))

/-- Python slice `s[i:j]`. -/
def pySlice (s : Str) (i j : Nat) : Str :=
  (s.drop i).take (j - i)

/-- Character at index `i`, if in range. -/
def charAt (s : Str) (i : Nat) : Option Char :=
  s.get? i

/-- Length of the maximal run of characters satisfying `p` starting at index `i`. -/
def runLenP (p : Char → Bool) (s : Str) (i : Nat) : Nat :=
  ((s.drop i).takeWhile p).length

/-- Length of the maximal run of `\s` characters starting at index `i`. -/
def wsRunLen (s : Str) (i : Nat) : Nat :=
  runLenP isPySpace s i

/-- Character class of the SPEAKER_LINE_RE name body: ASCII letters, space,
period, the right single quotation mark U+2019, and the range from 0x27
(apostrophe) to 0x2D (hyphen), which also covers parentheses, asterisk, plus
and comma. -/
def speakerNameChar (c : Char) : Bool :=
  c.isAlpha || c = ' ' || c = '.' || c = '’' || (0x27 ≤ c.toNat && c.toNat ≤ 0x2D)

/-- Character class `[A-Za-z/ \-]` of SPEAKER_LINE_RE's second parenthetical group. -/
def speakerGroup2Char (c : Char) : Bool :=
  c.isAlpha || c = '/' || c = ' ' || c = '-'

/-- Parse `\([^)]+\)` at index `i` (first optional group of SPEAKER_LINE_RE).
The group body cannot contain a closing parenthesis, so the greedy `[^)]+` has a
single viable extent: the run up to the next closing parenthesis.  Returns the
index just past the closing parenthesis. -/
def speakerOpt1 (s : Str) (i : Nat) : Option Nat :=
  if charAt s i = some '(' then
    let r := runLenP (fun c => c ≠ ')') s (i + 1)
    if r ≠ 0 && charAt s (i + 1 + r) = some ')' then some (i + 1 + r + 1) else none
  else none

/-- Parse `\s*\([A-Za-z/ \-]+\)` at index `i` (second optional group of
SPEAKER_LINE_RE).  `(` is not whitespace, so the greedy `\s*` is forced to the
full whitespace run; the group body excludes `)`, so its extent is unique. -/
def speakerOpt2 (s : Str) (i : Nat) : Option Nat :=
  let w := wsRunLen s i
  if charAt s (i + w) = some '(' then
    let r := runLenP speakerGroup2Char s (i + w + 1)
    if r ≠ 0 && charAt s (i + w + 1 + r) = some ')' then some (i + w + 1 + r + 1) else none
  else none

/-- Parse the tail `\s*:\s` of SPEAKER_LINE_RE at index `i`.  `:` is not
whitespace, so the greedy `\s*` is forced to the full whitespace run.  Returns
the index just past the single `\s` after the colon (the match end). -/
def speakerTail (s : Str) (i : Nat) : Option Nat :=
  let w := wsRunLen s i
  if charAt s (i + w) = some ':' then
    match charAt s (i + w + 1) with
    | some c => if isPySpace c then some (i + w + 2) else none
    | none => none
  else none

/-- After a candidate name body ending at index `p`, try the two optional
parenthetical groups (present first, as a greedy `(?:...)?` does, falling back
to absent) followed by the `\s*:\s` tail.  Returns (name group end, match end). -/
def speakerAfterName (s : Str) (p : Nat) : Option (Nat × Nat) :=
  (match speakerOpt1 s p with
   | some q1 =>
     (match speakerOpt2 s q1 with
      | some q2 => (speakerTail s q2).map (fun e => (q2, e))
      | none => none).orElse (fun _ => (speakerTail s q1).map (fun e => (q1, e)))
   | none => none).orElse (fun _ =>
    (match speakerOpt2 s p with
     | some q2 => (speakerTail s q2).map (fun e => (q2, e))
     | none => none).orElse (fun _ => (speakerTail s p).map (fun e => (p, e))))

/-- Greedy backtracking over the length of the `[A-Za-z .'Y'-\-]+` name body:
try the longest run first, then shorter ones, as the regex engine does. -/
def speakerNameLens (s : Str) (i : Nat) : Nat → Option (Nat × Nat)
  | 0 => none
  | n + 1 =>
    match speakerAfterName s (i + 1 + (n + 1)) with
    | some r => some r
    | none => speakerNameLens s i n

/-- Attempt to match SPEAKER_LINE_RE at index `i` of `s` (without the `(?m)^`
line-start test, which the caller performs).  Returns the name group and the
match end. -/
def speakerMatchAt (s : Str) (i : Nat) : Option (Str × Nat) :=
  match charAt s i with
  | none => none
  | some c =>
    if 'A' ≤ c && c ≤ 'Z' then
      match speakerNameLens s i (runLenP speakerNameChar s (i + 1)) with
      | some (ne, me) => some (pySlice s i ne, me)
      | none => none
    else none

/-- Whether index `i` is a line start for the `(?m)` flag: position 0 or just
after a newline. -/
def lineStart (s : Str) (i : Nat) : Bool :=
  i = 0 || charAt s (i - 1) = some '\n'

/-- One finditer match of SPEAKER_LINE_RE: start index, name group, match end. -/
structure SpeakerHit where
  start : Nat
  name : Str
  stop : Nat
deriving Repr, DecidableEq

/-- The scan of `SPEAKER_LINE_RE.finditer`: try each line-start position in
order; on a match, continue just past it. -/
def speakerScanAux (s : Str) : Nat → Nat → List SpeakerHit
  | 0, _ => []
  | fuel + 1, i =>
    if i ≥ s.length then []
    else if lineStart s i then
      match speakerMatchAt s i with
      | some (nm, e) => ⟨i, nm, e⟩ :: speakerScanAux s fuel e
      | none => speakerScanAux s fuel (i + 1)
    else speakerScanAux s fuel (i + 1)

/-- All matches of `SPEAKER_LINE_RE.finditer(section_text)`. -/
def speakerFindIter (s : Str) : List SpeakerHit :=
  speakerScanAux s (s.length + 1) 0

/-- A speech turn: the raw speaker label and the collapsed speech text. -/
structure SpeechTurn where
  speaker_raw : Str
  speech_text : Str
deriving Repr, DecidableEq

/-- One iteration of the `parse_speeches` loop over a boundary pair `(i, j)`:
slice the section, re-match the speaker pattern at the start of the slice, and
build the chunk; a failed re-match contributes nothing. -/
def speechChunk (sec : Str) (i j : Nat) : List SpeechTurn :=
  let s := pySlice sec i j
  match speakerMatchAt s 0 with
  | none => []
  | some (nm, e) => [⟨pyStrip nm, collapse_paragraphs (pyStrip (s.drop e))⟩]

/-- The loop of `parse_speeches` over consecutive boundary indices. -/
def speechesLoop (sec : Str) : List Nat → List SpeechTurn
  | i :: j :: rest => speechChunk sec i j ++ speechesLoop sec (j :: rest)
  | _ => []

/-- Embeds `parse_speeches` of `extract_debates.py`. -/
def parse_speeches (sec : Str) : List SpeechTurn :=
  let idx := (speakerFindIter sec).map SpeakerHit.start
  if idx.isEmpty then [] else speechesLoop sec (idx ++ [sec.length])

/-- A heading match of DEBATE_HEADING_RE, treated as an oracle input: its start
offset and raw captured title.  `finditer` guarantees the starts are strictly
increasing and lie inside the text; the heading pattern itself (a capitalized
run followed by a lookahead alternation) is external to the claims about
`split_debates`, which hold for every list of matches satisfying those
invariants. -/
structure HeadingMatch where
  start : Nat
  title : Str
deriving Repr, DecidableEq

/-- A debate section: title and body text. -/
structure DebateSection where
  title : Str
  text : Str
deriving Repr, DecidableEq

/-- The placeholder title used when no heading is found. -/
def placeholderTitle : Str := ['D', 'e', 'b', 'a', 't', 'e']

/-- The loop of `split_debates`: each boundary is paired with the next
boundary's start (or the document end) and the slice is stripped. -/
def splitLoop (raw : Str) : List (Nat × Str) → List DebateSection
  | [] => []
  | (s, t) :: rest =>
    ⟨t, pyStrip (pySlice raw s (match rest with | [] => raw.length | (s2, _) :: _ => s2))⟩
      :: splitLoop raw rest

/-- Embeds `split_debates` of `extract_debates.py`, with the heading matches
passed as the oracle parameter `ms`. -/
def split_debates (raw : Str) (ms : List HeadingMatch) : List DebateSection :=
  let positions := ms.map (fun m => (m.start, pyStrip m.title))
  match positions with
  | [] => [⟨placeholderTitle, raw⟩]
  | ps => splitLoop raw ps

/-- The unstripped body slices of `split_debates`, for stating the coverage
invariant: slice `i` spans from boundary `i` to boundary `i+1` (or document
end). -/
def debateSlices (raw : Str) : List Nat → List Str
  | [] => []
  | s :: rest =>
    pySlice raw s (match rest with | [] => raw.length | s2 :: _ => s2) :: debateSlices raw rest

/-- The groups captured by SPEAKER_META_RE: name, constituency, party. -/
structure MetaGroups where
  name : Str
  constit : Option Str
  party : Option Str
deriving Repr, DecidableEq

/-- Parse one optional group `\s*\(([^)]+)\)` of SPEAKER_META_RE at index `i`.
As in `speakerOpt2`, the greedy `\s*` is forced to the full whitespace run and
the group body has a unique extent.  Returns the captured body and the index
just past the closing parenthesis. -/
def metaGroupAt (s : Str) (i : Nat) : Option (Str × Nat) :=
  let w := wsRunLen s i
  if charAt s (i + w) = some '(' then
    let r := runLenP (fun c => c ≠ ')') s (i + w + 1)
    if r ≠ 0 && charAt s (i + w + 1 + r) = some ')' then
      some (pySlice s (i + w + 1) (i + w + 1 + r), i + w + 1 + r + 1)
    else none
  else none

/-- Whether `$` (without the MULTILINE flag) matches at index `i`: the end of
the string, or just before a single trailing newline. -/
def dollarOk (s : Str) (i : Nat) : Bool :=
  i = s.length || (i + 1 = s.length && charAt s i = some '\n')

/-- After the lazy name of SPEAKER_META_RE has consumed up to index `i`, try the
two optional groups (each present first, then absent) followed by `$`, in the
backtracking order of the regex engine. -/
def metaTail (s : Str) (i : Nat) : Option (Option Str × Option Str) :=
  (match metaGroupAt s i with
   | some (g1, j) =>
     (match metaGroupAt s j with
      | some (g2, k) => if dollarOk s k then some (some g1, some g2) else none
      | none => none).orElse (fun _ =>
       if dollarOk s j then some (some g1, none) else none)
   | none => none).orElse (fun _ =>
    (match metaGroupAt s i with
     | some (g1, j) => if dollarOk s j then some (none, some g1) else none
     | none => none).orElse (fun _ =>
      if dollarOk s i then some (none, none) else none))

/-- The lazy `.+?` name of SPEAKER_META_RE: try name lengths in increasing
order; `.` does not match a newline, so the search stops once the prefix would
contain one. -/
def metaNameLoop (s : Str) : Nat → Nat → Option (Str × Option Str × Option Str)
  | _, 0 => none
  | k, fuel + 1 =>
    if k ≤ s.length && (pySlice s 0 k).all (· ≠ '\n') then
      match metaTail s k with
      | some (c, p) => some (pySlice s 0 k, c, p)
      | none => metaNameLoop s (k + 1) fuel
    else none

/-- Embeds `SPEAKER_META_RE.match(s)`: the full backtracking search of
`^(?P<name>.+?)(?:\s*\((?P<constit>[^)]+)\))?(?:\s*\((?P<party>[^)]+)\))?$`. -/
def speakerMetaMatch (s : Str) : Option MetaGroups :=
  (metaNameLoop s 1 (s.length + 1)).map (fun r => ⟨r.1, r.2.1, r.2.2⟩)

/-- Python `(g or "").strip() or None` applied to an optional captured group. -/
def groupOrNone (g : Option Str) : Option Str :=
  match g with
  | none => none
  | some t => let t2 := pyStrip t; if t2.isEmpty then none else some t2

/-- Embeds `parse_speaker_meta` of `extract_debates.py`.  The result models the
Python dict: a list of key/value pairs in insertion order, where a `none` value
models Python None.  On a failed match the dict contains only the "name" key. -/
def parse_speaker_meta (s : Str) : List (String × Option Str) :=
  match speakerMetaMatch s with
  | none => [("name", some s)]
  | some g =>
    [("name", some (pyStrip g.name)),
     ("constituency", groupOrNone g.constit),
     ("party", groupOrNone g.party)]

/-- Look up a key in a modelled Python dict: `none` means the key is absent,
`some none` means the key is present with value None. -/
def fieldOf (r : List (String × Option Str)) (k : String) : Option (Option Str) :=
  (r.find? (fun p => p.1 = k)).map Prod.snd

/-- Case-insensitive literal match (re.I): the slice starting at `i` lowercases
to the (lowercase) word `w`. -/
def matchCI (s : Str) (i : Nat) (w : Str) : Bool :=
  (pySlice s i (i + w.length)).map Char.toLower = w

/-- Try a list of literal alternatives at index `i` in order, returning the
length of the first that matches. -/
def firstAltLen (s : Str) (i : Nat) (ws : List Str) : Option Nat :=
  ws.findSome? (fun w => if matchCI s i w then some w.length else none)

/-- The alternation `(?:what|which)` of the fallback relation pattern. -/
def interrogKw : List Str :=
  [['w', 'h', 'a', 't'], ['w', 'h', 'i', 'c', 'h']]

/-- The alternation `(?:steps|progress|support)`. -/
def interrogNoun : List Str :=
  [['s', 't', 'e', 'p', 's'],
   ['p', 'r', 'o', 'g', 'r', 'e', 's', 's'],
   ['s', 'u', 'p', 'p', 'o', 'r', 't']]

/-- The alternation `(?:on|to|for)`. -/
def interrogPrep : List Str :=
  [['o', 'n'], ['t', 'o'], ['f', 'o', 'r']]

/-- Parse `([^?]+)\?` at index `t`: the greedy capture runs to the next question
mark, which must be present.  Returns the captured span and the match end. -/
def topicAt (s : Str) (t : Nat) : Option (Str × Nat) :=
  let r := runLenP (fun c => c ≠ '?') s t
  if r ≠ 0 && charAt s (t + r) = some '?' then
    some (pySlice s t (t + r), t + r + 1)
  else none

/-- Backtracking over the greedy `\s+` after the preposition: try the longest
whitespace run first, down to a single character. -/
def prepWsLoop (s : Str) (q : Nat) : Nat → Option (Str × Nat)
  | 0 => none
  | w + 1 =>
    match topicAt s (q + (w + 1)) with
    | some r => some r
    | none => prepWsLoop s q w

/-- Try `(?:on|to|for)\s+([^?]+)\?` at index `p`. -/
def tryPrepAt (s : Str) (p : Nat) : Option (Str × Nat) :=
  match firstAltLen s p interrogPrep with
  | some n => prepWsLoop s (p + n) (wsRunLen s (p + n))
  | none => none

/-- The lazy `[^?]*?` gap: try the preposition at each successive position,
stopping when a question mark (which the gap cannot consume) or the string end
is reached. -/
def gapLoop (s : Str) : Nat → Nat → Option (Str × Nat)
  | 0, _ => none
  | fuel + 1, p =>
    match tryPrepAt s p with
    | some r => some r
    | none =>
      match charAt s p with
      | some c => if c = '?' then none else gapLoop s fuel (p + 1)
      | none => none

/-- Attempt the full fallback pattern
`(?:what|which)\s+(?:steps|progress|support)[^?]*?(?:on|to|for)\s+([^?]+)\?`
at index `i` (case-insensitively).  The `\s+` before the noun is forced to the
maximal run because the noun starts with a letter. -/
def interrogAt (s : Str) (i : Nat) : Option (Str × Nat) :=
  match firstAltLen s i interrogKw with
  | none => none
  | some n =>
    let w := wsRunLen s (i + n)
    if w = 0 then none
    else
      match firstAltLen s (i + n + w) interrogNoun with
      | none => none
      | some m => gapLoop s (s.length + 1) (i + n + w + m)

/-- The `finditer` scan for the fallback pattern: captured topics in match
order, resuming each scan just past the previous match. -/
def interrogScan (s : Str) : Nat → Nat → List Str
  | 0, _ => []
  | fuel + 1, i =>
    match interrogAt s i with
    | some (cap, e) => cap :: interrogScan s fuel e
    | none => if i < s.length then interrogScan s fuel (i + 1) else []

/-- All captured topics of the fallback pattern over `text`. -/
def interrogMatches (s : Str) : List Str :=
  interrogScan s (s.length + 1) 0

/-- The characters stripped from the captured topic: `strip(" .;:)")`. -/
def topicStripChar (c : Char) : Bool :=
  c = ' ' || c = '.' || c = ';' || c = ':' || c = ')'

/-- Embeds the `gen is None` branch of `extract_relations` in
`extract_debates.py`: one ("MP", "asks_about", topic) triple per match of the
fallback pattern, with the topic stripped of `" .;:)"` characters on both ends
as Python `str.strip(chars)` does. -/
def extract_relations (text : Str) : List (Str × Str × Str) :=
  (interrogMatches text).map (fun cap =>
    (['M', 'P'], ['a', 's', 'k', 's', '_', 'a', 'b', 'o', 'u', 't'], stripBoth topicStripChar cap))

/-- The trimming as claim C8 words it: trailing characters only.  Used to
compare the claimed behaviour with the code's two-sided strip. -/
def trimTrailingOnly (l : Str) : Str :=
  dropTrailingP topicStripChar l

/-- One cell-by-cell step of the longest-common-subsequence dynamic program:
given the previous row (tail `prev`), the diagonal value and the value to the
left, produce the rest of the new row. -/
def lcsStepAux (x : Char) : List Char → List Nat → Nat → Nat → List Nat
  | [], _, _, _ => []
  | _ :: _, [], _, _ => []
  | y :: ys, p :: ps, diag, left =>
    let v := if x = y then diag + 1 else max left p
    v :: lcsStepAux x ys ps p v

/-- The new DP row for character `x` against `ys`, from the previous row. -/
def lcsRow (x : Char) (ys : List Char) (prev : List Nat) : List Nat :=
  match prev with
  | [] => []
  | r0 :: rest => 0 :: lcsStepAux x ys rest r0 0

/-- Length of a longest common subsequence, by the standard dynamic program. -/
def lcsLen (xs ys : List Char) : Nat :=
  (xs.foldl (fun row x => lcsRow x ys row) (List.replicate (ys.length + 1) 0)).getLastD 0

/-- The InDel (insertion/deletion) edit distance used by `fuzz.ratio`. -/
def indelDist (a b : Str) : Nat :=
  a.length + b.length - 2 * lcsLen a b

/-- An exact rational score, modelling the Python floats the pipeline compares.
Kept unnormalized (numerator over a positive denominator); comparisons go by
cross-multiplication, so every comparison the code performs is exact. -/
structure PyFloat where
  num : Int
  den : Nat
deriving Repr, DecidableEq

/-- Strict order on scores, by cross-multiplication. -/
def pfLt (a b : PyFloat) : Bool :=
  a.num * (b.den : Int) < b.num * (a.den : Int)

/-- Weak order on scores, by cross-multiplication. -/
def pfLe (a b : PyFloat) : Bool :=
  a.num * (b.den : Int) ≤ b.num * (a.den : Int)

/-- The score 0. -/
def pfZero : PyFloat := ⟨0, 1⟩

/-- The score 1. -/
def pfOne : PyFloat := ⟨1, 1⟩

/-- The sentinel -1 used by `out[canon].get("best_score", -1)`. -/
def pfNegOne : PyFloat := ⟨-1, 1⟩

/-- `rapidfuzz` normalized InDel similarity on the 0-100 scale, as an exact
rational: `100 * (1 - dist / (len a + len b))`, and 100 for two empty strings. -/
def fuzzRatio (a b : Str) : PyFloat :=
  let n := a.length + b.length
  if n = 0 then ⟨100, 1⟩ else ⟨100 * ((n : Int) - (indelDist a b : Int)), n⟩

/-- Helper for Python `str.split()`: `cur` is the current token, reversed. -/
def splitWsAux : Str → Str → List Str
  | cur, [] => if cur.isEmpty then [] else [cur.reverse]
  | cur, c :: rest =>
    if isPySpace c then
      if cur.isEmpty then splitWsAux [] rest else cur.reverse :: splitWsAux [] rest
    else splitWsAux (c :: cur) rest

/-- Python `str.split()`: split on whitespace runs, dropping empty tokens. -/
def splitWs (l : Str) : List Str :=
  splitWsAux [] l

/-- Lexicographic comparison of strings by code point, as Python string `<`. -/
def strLt : Str → Str → Bool
  | [], [] => false
  | [], _ :: _ => true
  | _ :: _, [] => false
  | a :: as_, b :: bs => a.toNat < b.toNat || (a = b && strLt as_ bs)

/-- Insertion into a `strLt`-sorted list. -/
def insertStr (x : Str) : List Str → List Str
  | [] => [x]
  | y :: ys => if strLt x y then x :: y :: ys else y :: insertStr x ys

/-- Insertion sort by `strLt`, as Python `sorted` on strings. -/
def sortStrs (l : List Str) : List Str :=
  l.foldr insertStr []

/-- `fuzz.token_sort_ratio` preprocessing: sort the whitespace tokens and join
them with single spaces. -/
def tokenSortKey (s : Str) : Str :=
  List.intercalate [' '] (sortStrs (splitWs s))

/-- Embeds `fuzz.token_sort_ratio`. -/
def token_sort_ratio (a b : Str) : PyFloat :=
  fuzzRatio (tokenSortKey a) (tokenSortKey b)

/-- Embeds `process.extractOne(q, choices, scorer=fuzz.token_sort_ratio)`:
the first choice with the strictly highest score (later choices replace the
best only on a strictly greater score). -/
def extractOne (q : Str) (choices : List Str) : Option (Str × PyFloat) :=
  choices.foldl
    (fun best c =>
      match best with
      | none => some (c, token_sort_ratio q c)
      | some (b, sc) =>
        let sc2 := token_sort_ratio q c
        if pfLt sc sc2 then some (c, sc2) else some (b, sc))
    none

/-- Characters kept by `normalize_key`: the complement of `[^\w\s&\-./]`. -/
def keyChar (c : Char) : Bool :=
  isWordChar c || isPySpace c || c = '&' || c = '-' || c = '.' || c = '/'

/-- Embeds `normalize_key` of `extract_debates.py`: drop disallowed characters,
strip, lowercase, collapse multi-whitespace runs. -/
def normalize_key (s : Str) : Str :=
  collapseWsRuns (List.map Char.toLower (pyStrip (s.filter keyChar)))

/-- One entity mention: surface text, type and confidence score. -/
structure Mention where
  text : Str
  type : Str
  score : PyFloat
deriving Repr, DecidableEq

/-- First-match lookup in an insertion-ordered association list (a Python dict). -/
def alookup {α : Type} (l : List (Str × α)) (k : Str) : Option α :=
  (l.find? (fun p => p.1 = k)).map Prod.snd

/-- Update the first entry with key `k` in place, as a Python dict item update. -/
def aupdate {α : Type} : List (Str × α) → Str → (α → α) → List (Str × α)
  | [], _, _ => []
  | p :: rest, k, f =>
    if p.1 = k then (p.1, f p.2) :: rest else p :: aupdate rest k f

/-- One step of the first loop of `build_entity_map`: register the normalized
key of one mention text.  A key not yet registered is fuzzy-compared against
all keys registered so far (`list(canonical.keys())`, in insertion order) and
adopts the best match when it scores at least the threshold. -/
def registerOne (th : PyFloat) (canonical : List (Str × Str)) (txt : Str) : List (Str × Str) :=
  let nk := normalize_key txt
  if (alookup canonical nk).isSome then canonical
  else
    let canon :=
      match extractOne nk (canonical.map Prod.fst) with
      | none => nk
      | some (best, sc) => if pfLe th sc then best else nk
    canonical ++ [(nk, canon)]

/-- The registry built by the first loop of `build_entity_map` over all mention
texts in input order. -/
def build_canonical (th : PyFloat) (texts : List Str) : List (Str × Str) :=
  texts.foldl (registerOne th) []

/-- One output cluster of `build_entity_map`.  `best_score` models the
transient "best_score" dict entry (`none` while absent); it is reset by the
final pop. -/
structure Cluster where
  canonical : Str
  type : Str
  mentions : List Str
  count : Nat
  best_score : Option PyFloat
deriving Repr, DecidableEq

/-- The in-place cluster update of the second loop of `build_entity_map`:
append the raw text, increment the count, and overwrite the type and best
score when this mention has a positive score strictly above the best seen
(`out[canon].get("best_score", -1) < e["score"]`). -/
def updateCluster (e : Mention) (cl : Cluster) : Cluster :=
  let cl2 : Cluster :=
    { cl with mentions := cl.mentions ++ [e.text], count := cl.count + 1 }
  if pfLt pfZero e.score && pfLt (cl2.best_score.getD pfNegOne) e.score then
    { cl2 with type := e.type, best_score := some e.score }
  else cl2

/-- One step of the second loop of `build_entity_map`: route mention `e` to the
cluster of its registered key, creating the cluster on first contact, and apply
`updateCluster`. -/
def addMention (canonical : List (Str × Str)) (out : List (Str × Cluster)) (e : Mention) :
    List (Str × Cluster) :=
  let nk := normalize_key e.text
  let canon := (alookup canonical nk).getD nk
  let out2 :=
    if (alookup out canon).isSome then out
    else out ++ [(canon, ⟨e.text, e.type, [], 0, none⟩)]
  aupdate out2 canon (updateCluster e)

/-- The final per-cluster cleanup of `build_entity_map`:
`sorted(set(mentions))` and popping the transient best score. -/
def finalizeCluster (cl : Cluster) : Cluster :=
  { cl with mentions := sortStrs cl.mentions.dedup, best_score := none }

/-- Embeds `build_entity_map` of `extract_debates.py`. -/
def build_entity_map (es : List Mention) (th : PyFloat) : List (Str × Cluster) :=
  let canonical := build_canonical th (es.map Mention.text)
  let out := es.foldl (addMention canonical) []
  out.map (fun p => (p.1, finalizeCluster p.2))

/-- The key under which the second loop files a mention: the registered key of
its normalized key (the `canonical.get(nk, nk)` of the code). -/
def assignedKey (canonical : List (Str × Str)) (e : Mention) : Str :=
  (alookup canonical (normalize_key e.text)).getD (normalize_key e.text)

/-- The mentions of `es` filed under key `k`, in input order. -/
def membersOf (canonical : List (Str × Str)) (es : List Mention) (k : Str) : List Mention :=
  es.filter (fun e => assignedKey canonical e = k)

/-- The earliest mention with the maximal score (later mentions replace the
best only on a strictly greater score), as the spec words the type policy. -/
def bestMention : List Mention → Option Mention
  | [] => none
  | e :: rest => some (rest.foldl (fun b x => if pfLt b.score x.score then x else b) e)

/-- Sum of the `count` fields over an entity map. -/
def sumCounts (out : List (Str × Cluster)) : Nat :=
  (out.map (fun p => p.2.count)).sum

/-- Output discipline of `collapseBlanks`: no tab survives, and no two blank
characters are adjacent. -/
def blanksClean : Str → Bool
  | [] => true
  | a :: l =>
    (a ≠ '\t') &&
    (match l.head? with | some d => !(isBlank a && isBlank d) | none => true) &&
    blanksClean l

theorem blanksClean_tail {a : Char} {l : Str} (h : blanksClean (a :: l) = true) :
    blanksClean l = true := by
  simp only [blanksClean, Bool.and_eq_true] at h
  exact h.2

theorem head_dropWhile_not {p : Char → Bool} {l : Str} {d : Char}
    (h : (l.dropWhile p).head? = some d) : p d = false := by
  induction l with
  | nil => simp [List.dropWhile] at h
  | cons c rest ih =>
    rw [List.dropWhile] at h
    cases hc : p c with
    | true => rw [hc] at h; exact ih h
    | false =>
      rw [hc] at h
      simp only [List.head?, Option.some.injEq] at h
      subst h
      exact hc

theorem blanksClean_cons {a : Char} {l : Str}
    (h1 : a ≠ '\t')
    (h2 : ∀ d, l.head? = some d → (isBlank a && isBlank d) = false)
    (h3 : blanksClean l = true) : blanksClean (a :: l) = true := by
  simp only [blanksClean, Bool.and_eq_true]
  refine ⟨⟨by simp [h1], ?_⟩, h3⟩
  cases hh : l.head? with
  | none => rfl
  | some d => simp [h2 d hh]

theorem collapseBlanksAux_skip_head {l : Str} {d : Char}
    (h : (collapseBlanksAux true l).head? = some d) : isBlank d = false := by
  induction l with
  | nil => simp [collapseBlanksAux] at h
  | cons c rest ih =>
    rw [collapseBlanksAux] at h
    cases hc : isBlank c with
    | true => rw [hc] at h; simp only [if_true] at h; exact ih h
    | false =>
      rw [hc] at h
      simp only [Bool.false_eq_true, if_false, List.head?, Option.some.injEq] at h
      subst h
      exact hc

theorem blanksClean_collapseBlanksAux (l : Str) : ∀ b, blanksClean (collapseBlanksAux b l) = true := by
  induction l with
  | nil => intro b; rw [collapseBlanksAux]; rfl
  | cons c rest ih =>
    intro b
    rw [collapseBlanksAux]
    cases hc : isBlank c with
    | true =>
      simp only [if_true]
      cases b with
      | true => exact ih true
      | false =>
        refine blanksClean_cons (by decide) (fun d hd => ?_) (ih true)
        simp [collapseBlanksAux_skip_head hd]
    | false =>
      simp only [Bool.false_eq_true, if_false]
      refine blanksClean_cons ?_ (fun d hd => by simp [hc]) (ih false)
      intro hEq
      subst hEq
      simp [isBlank] at hc

theorem blanksClean_collapseBlanks (l : Str) : blanksClean (collapseBlanks l) = true :=
  blanksClean_collapseBlanksAux l false

theorem collapseBlanksAux_true_of_head {l : Str}
    (h : ∀ d, l.head? = some d → isBlank d = false) :
    collapseBlanksAux true l = collapseBlanksAux false l := by
  cases l with
  | nil => rfl
  | cons c rest =>
    have hc : isBlank c = false := h c rfl
    rw [collapseBlanksAux, collapseBlanksAux, hc]
    simp

theorem collapseBlanks_of_clean : ∀ l, blanksClean l = true → collapseBlanks l = l := by
  intro l
  unfold collapseBlanks
  induction l with
  | nil => intro _; rfl
  | cons c rest ih =>
    intro h
    have hparts := h
    simp only [blanksClean, Bool.and_eq_true] at hparts
    rw [collapseBlanksAux]
    cases hc : isBlank c with
    | true =>
      simp only [if_true]
      have hcs : c = ' ' := by
        rcases hparts with ⟨⟨ht, _⟩, _⟩
        simp only [ne_eq, decide_not, Bool.not_eq_true', decide_eq_false_iff_not] at ht
        simp only [isBlank, Bool.or_eq_true, decide_eq_true_eq] at hc
        tauto
      have hrest : ∀ d, rest.head? = some d → isBlank d = false := by
        intro d hd
        rcases hparts with ⟨⟨_, hpair⟩, _⟩
        rw [hd] at hpair
        simp only [Bool.not_eq_true', Bool.and_eq_false_iff] at hpair
        rcases hpair with h1 | h1
        · rw [h1] at hc; exact absurd hc (by simp)
        · exact h1
      rw [collapseBlanksAux_true_of_head hrest, ih (blanksClean_tail h), hcs]
      simp
    | false =>
      simp only [Bool.false_eq_true, if_false]
      rw [ih (blanksClean_tail h)]

theorem repairHyphenBreaks_cons_other (a : Char) (rest : Str)
    (h1 : ∀ b rest2, rest = '-' :: '\n' :: b :: rest2 → False) :
    repairHyphenBreaks (a :: rest) = a :: repairHyphenBreaks rest := by
  rw [repairHyphenBreaks.eq_def]
  cases rest with
  | nil => rfl
  | cons c1 r1 =>
    cases r1 with
    | nil => simp
    | cons c2 r2 =>
      cases r2 with
      | nil => simp
      | cons c3 r3 =>
        by_cases e1 : c1 = '-'
        · by_cases e2 : c2 = '\n'
          · subst e1; subst e2; exact absurd rfl (fun hh => h1 c3 r3 hh)
          · subst e1; simp [e2]
        · simp [e1]

theorem hasHyphenBreak_cons_other (a : Char) (rest : Str)
    (h1 : ∀ b rest2, rest = '-' :: '\n' :: b :: rest2 → False) :
    hasHyphenBreak (a :: rest) = hasHyphenBreak rest := by
  rw [hasHyphenBreak.eq_def]
  cases rest with
  | nil => rfl
  | cons c1 r1 =>
    cases r1 with
    | nil => simp
    | cons c2 r2 =>
      cases r2 with
      | nil => simp
      | cons c3 r3 =>
        by_cases e1 : c1 = '-'
        · by_cases e2 : c2 = '\n'
          · subst e1; subst e2; exact absurd rfl (fun hh => h1 c3 r3 hh)
          · subst e1; simp [e2]
        · simp [e1]

theorem repairHyphenBreaks_head? (l : Str) :
    (repairHyphenBreaks l).head? = l.head? := by
  induction l using repairHyphenBreaks.induct with
  | case1 a b rest2 hw ih => rw [repairHyphenBreaks, if_pos hw]; rfl
  | case2 a b rest2 hw ih => rw [repairHyphenBreaks, if_neg hw]; rfl
  | case3 a rest h1 ih => rw [repairHyphenBreaks_cons_other a rest h1]; rfl
  | case4 => rw [repairHyphenBreaks]

theorem blanksClean_pair {a d : Char} {l : Str} (h : blanksClean (a :: l) = true)
    (hd : l.head? = some d) : (isBlank a && isBlank d) = false := by
  simp only [blanksClean, Bool.and_eq_true] at h
  rcases h with ⟨⟨_, hp⟩, _⟩
  rw [hd] at hp
  simp only [Bool.not_eq_true'] at hp
  exact hp

theorem blanksClean_not_tab {a : Char} {l : Str} (h : blanksClean (a :: l) = true) :
    a ≠ '\t' := by
  simp only [blanksClean, Bool.and_eq_true] at h
  rcases h with ⟨⟨h1, _⟩, _⟩
  simpa using h1

theorem wordChar_not_blank {c : Char} (h : isWordChar c = true) : isBlank c = false := by
  cases hb : isBlank c with
  | false => rfl
  | true =>
    simp only [isBlank, Bool.or_eq_true, decide_eq_true_eq] at hb
    rcases hb with h1 | h1
    · subst h1; exact absurd h (by decide)
    · subst h1; exact absurd h (by decide)

theorem not_tab_of_not_blank {c : Char} (h : isBlank c = false) : c ≠ '\t' := by
  intro he
  subst he
  simp [isBlank] at h

theorem blanksClean_repairHyphenBreaks :
    ∀ l, blanksClean l = true → blanksClean (repairHyphenBreaks l) = true := by
  intro l
  induction l using repairHyphenBreaks.induct with
  | case1 a b rest2 hw ih =>
    intro h
    rw [repairHyphenBreaks, if_pos hw]
    simp only [Bool.and_eq_true] at hw
    have hba : isBlank a = false := wordChar_not_blank hw.1
    have hbb : isBlank b = false := wordChar_not_blank hw.2
    have h4 : blanksClean rest2 = true :=
      blanksClean_tail (blanksClean_tail (blanksClean_tail (blanksClean_tail h)))
    refine blanksClean_cons (not_tab_of_not_blank hba) (fun d hd => by simp [hba]) ?_
    exact blanksClean_cons (not_tab_of_not_blank hbb) (fun d hd => by simp [hbb]) (ih h4)
  | case2 a b rest2 hw ih =>
    intro h
    rw [repairHyphenBreaks, if_neg hw]
    refine blanksClean_cons (blanksClean_not_tab h) (fun d hd => ?_) (ih (blanksClean_tail h))
    rw [repairHyphenBreaks_head?] at hd
    simp only [List.head?, Option.some.injEq] at hd
    subst hd
    simp [isBlank]
  | case3 a rest h1 ih =>
    intro h
    rw [repairHyphenBreaks_cons_other a rest h1]
    refine blanksClean_cons (blanksClean_not_tab h) (fun d hd => ?_) (ih (blanksClean_tail h))
    rw [repairHyphenBreaks_head?] at hd
    exact blanksClean_pair h hd
  | case4 => intro h; rw [repairHyphenBreaks]; exact h

theorem repairHyphenBreaks_of_no_break :
    ∀ l, hasHyphenBreak l = false → repairHyphenBreaks l = l := by
  intro l
  induction l using repairHyphenBreaks.induct with
  | case1 a b rest2 hw ih =>
    intro h
    rw [hasHyphenBreak] at h
    simp only [Bool.or_eq_false_iff] at h
    exact absurd hw (by simp [h.1])
  | case2 a b rest2 hw ih =>
    intro h
    rw [hasHyphenBreak] at h
    simp only [Bool.or_eq_false_iff] at h
    rw [repairHyphenBreaks, if_neg hw, ih h.2]
  | case3 a rest h1 ih =>
    intro h
    rw [hasHyphenBreak_cons_other a rest h1] at h
    rw [repairHyphenBreaks_cons_other a rest h1, ih h]
  | case4 => intro _; rw [repairHyphenBreaks]

/-- C3 counterexample: on the chained hyphen breaks of "a-\nb-\nc" the
non-overlapping scan of `re.sub` repairs only the first break, so a second
normalization pass changes the string again: normalization is not idempotent. -/
theorem normalize_text_not_idempotent :
    normalize_text (normalize_text ['a', '-', '\n', 'b', '-', '\n', 'c']) ≠
      normalize_text ['a', '-', '\n', 'b', '-', '\n', 'c'] := by decide

/-- C3 (amended): the normalization step is idempotent on every string whose
once-normalized form contains no remaining letter-hyphen-newline-letter break;
chained breaks can survive one pass (see the counterexample), so idempotence
does not hold unconditionally. -/
theorem normalize_text_idempotent_of_no_break (l : Str)
    (h : hasHyphenBreak (normalize_text l) = false) :
    normalize_text (normalize_text l) = normalize_text l := by
  unfold normalize_text
  rw [collapseBlanks_of_clean _ (blanksClean_repairHyphenBreaks _ (blanksClean_collapseBlanks l))]
  exact repairHyphenBreaks_of_no_break _ h

/-- Witness for C3 (amended) at the concrete input "a-\nb". -/
theorem normalize_text_idempotent_of_no_break_witness :
    hasHyphenBreak (normalize_text ['a', '-', '\n', 'b']) = false ∧
      normalize_text (normalize_text ['a', '-', '\n', 'b']) =
        normalize_text ['a', '-', '\n', 'b'] :=
  ⟨by decide, normalize_text_idempotent_of_no_break _ (by decide)⟩

/-- C9: with no heading match, `split_debates` returns the single placeholder
section holding the whole raw text; on empty input `parse_speeches` returns no
speech turns and `build_entity_map` of no mentions is the empty map. -/
theorem empty_and_no_heading_fallbacks :
    placeholderTitle = ['D', 'e', 'b', 'a', 't', 'e'] ∧
    (∀ raw : Str, split_debates raw [] = [⟨placeholderTitle, raw⟩]) ∧
    parse_speeches [] = [] ∧
    (∀ th : PyFloat, build_entity_map [] th = []) :=
  ⟨rfl, fun _ => rfl, rfl, fun _ => rfl⟩

/-- C4 counterexample: on the empty string the pattern fails (the lazy `.+?`
needs at least one non-newline character), and `parse_speaker_meta` returns a
record containing only the name key: the constituency and party keys are
absent, not present with a null value as the claim states. -/
theorem parse_speaker_meta_failure_counterexample :
    speakerMetaMatch [] = none ∧
    parse_speaker_meta [] = [("name", some [])] ∧
    fieldOf (parse_speaker_meta []) "constituency" = none ∧
    fieldOf (parse_speaker_meta []) "party" = none := by decide

/-- C4 (amended): on every input on which SPEAKER_META_RE fails to match,
`parse_speaker_meta` returns the record containing only the name field bound
to the raw input; the constituency and party fields are absent rather than
null. -/
theorem parse_speaker_meta_failure (s : Str) (h : speakerMetaMatch s = none) :
    parse_speaker_meta s = [("name", some s)] ∧
    fieldOf (parse_speaker_meta s) "constituency" = none ∧
    fieldOf (parse_speaker_meta s) "party" = none := by
  unfold parse_speaker_meta
  rw [h]
  exact ⟨rfl, rfl, rfl⟩

/-- Witness for C4 (amended) at the concrete failing input consisting of one
newline. -/
theorem parse_speaker_meta_failure_witness :
    speakerMetaMatch ['\n'] = none ∧
    (parse_speaker_meta ['\n'] = [("name", some ['\n'])] ∧
      fieldOf (parse_speaker_meta ['\n']) "constituency" = none ∧
      fieldOf (parse_speaker_meta ['\n']) "party" = none) :=
  ⟨by decide, parse_speaker_meta_failure ['\n'] (by decide)⟩

/-- C8 counterexample: the code strips the topic on both ends, not only on the
trailing end.  On this speech the captured span is ")grants": the claim's
trailing-only trimming would keep it unchanged, but the emitted triple carries
"grants" with the leading parenthesis removed. -/
theorem extract_relations_trim_counterexample :
    interrogMatches "What steps is X taking on )grants?".toList = [")grants".toList] ∧
    extract_relations "What steps is X taking on )grants?".toList =
      [(['M', 'P'], "asks_about".toList, "grants".toList)] ∧
    trimTrailingOnly ")grants".toList = ")grants".toList ∧
    "grants".toList ≠ ")grants".toList := by decide

/-- C8 (amended): with no generator, `extract_relations` emits one
("MP", "asks_about", topic) triple per interrogative match, with the topic
trimmed of the characters space, period, semicolon, colon and closing
parenthesis on both ends (not only trailing); on the flood-defences speech it
yields exactly the single triple ("MP", "asks_about", "flood defences"). -/
theorem extract_relations_fallback :
    (∀ text : Str, extract_relations text =
      (interrogMatches text).map (fun cap =>
        (['M', 'P'], "asks_about".toList, stripBoth topicStripChar cap))) ∧
    extract_relations "What steps is the Minister taking on flood defences?".toList =
      [(['M', 'P'], "asks_about".toList, "flood defences".toList)] :=
  ⟨fun _ => rfl, by decide⟩

theorem pySlice_append_drop (raw : Str) {s e : Nat} (hse : s ≤ e) :
    pySlice raw s e ++ raw.drop e = raw.drop s := by
  unfold pySlice
  have h1 : raw.drop e = List.drop (e - s) (raw.drop s) := by
    rw [List.drop_drop]
    congr 1
    omega
  rw [h1, List.take_append_drop]

theorem debateSlices_join (raw : Str) :
    ∀ (rest : List Nat) (s0 : Nat),
      List.Chain' (· < ·) (s0 :: rest) → (∀ x ∈ s0 :: rest, x ≤ raw.length) →
      (debateSlices raw (s0 :: rest)).flatten = raw.drop s0 := by
  intro rest
  induction rest with
  | nil =>
    intro s0 _ hb
    show (pySlice raw s0 raw.length :: []).flatten = raw.drop s0
    have hlen : (raw.drop s0).length ≤ raw.length - s0 := by
      rw [List.length_drop]
    simp only [List.flatten_cons, List.flatten_nil, List.append_nil]
    exact List.take_of_length_le hlen
  | cons s1 rest ih =>
    intro s0 hc hb
    have hc1 : s0 < s1 ∧ List.Chain' (· < ·) (s1 :: rest) := List.chain'_cons.mp hc
    have hb1 : ∀ x ∈ s1 :: rest, x ≤ raw.length := fun x hx => hb x (List.mem_cons_of_mem _ hx)
    show (pySlice raw s0 s1 :: debateSlices raw (s1 :: rest)).flatten = raw.drop s0
    rw [List.flatten_cons, ih s1 hc1.2 hb1]
    exact pySlice_append_drop raw (Nat.le_of_lt hc1.1)

theorem splitLoop_texts (raw : Str) :
    ∀ ps : List (Nat × Str),
      (splitLoop raw ps).map DebateSection.text =
        (debateSlices raw (ps.map Prod.fst)).map pyStrip := by
  intro ps
  induction ps with
  | nil => rfl
  | cons p rest ih =>
    obtain ⟨s, t⟩ := p
    cases rest with
    | nil => simp [splitLoop, debateSlices]
    | cons q rest2 =>
      obtain ⟨s2, t2⟩ := q
      simp only [splitLoop, debateSlices, List.map_cons, List.map, List.cons.injEq]
      exact ⟨trivial, by simpa [splitLoop, debateSlices] using ih⟩

theorem splitLoop_titles (raw : Str) :
    ∀ ps : List (Nat × Str),
      (splitLoop raw ps).map DebateSection.title = ps.map Prod.snd := by
  intro ps
  induction ps with
  | nil => rfl
  | cons p rest ih =>
    obtain ⟨s, t⟩ := p
    simp only [splitLoop, List.map_cons, List.cons.injEq]
    exact ⟨trivial, ih⟩
theorem splitLoop_length (raw : Str) :
    ∀ ps : List (Nat × Str), (splitLoop raw ps).length = ps.length := by
  intro ps
  induction ps with
  | nil => rfl
  | cons p rest ih =>
    obtain ⟨s, t⟩ := p
    simp only [splitLoop, List.length_cons, ih]

/-- C2: for every raw text and every heading-match list with strictly
increasing in-range starts (as `finditer` produces), the sections of
`split_debates` are the consecutive slices from each boundary to the next:
their stripped bodies are exactly the per-slice strips, their titles the
stripped captured titles, and the unstripped slices concatenate to the raw
text from the first heading onward, so the sections are contiguous,
non-overlapping, in document order, and cover the text from the first heading
on, up to the per-slice stripping. -/
theorem split_debates_coverage (raw : Str) (m0 : HeadingMatch) (rest : List HeadingMatch)
    (hchain : List.Chain' (· < ·) ((m0 :: rest).map HeadingMatch.start))
    (hbound : ∀ m ∈ m0 :: rest, m.start ≤ raw.length) :
    (split_debates raw (m0 :: rest)).map DebateSection.text =
        (debateSlices raw ((m0 :: rest).map HeadingMatch.start)).map pyStrip ∧
      (debateSlices raw ((m0 :: rest).map HeadingMatch.start)).flatten = raw.drop m0.start ∧
      (split_debates raw (m0 :: rest)).map DebateSection.title =
        (m0 :: rest).map (fun m => pyStrip m.title) ∧
      (split_debates raw (m0 :: rest)).length = (m0 :: rest).length := by
  have hsplit : split_debates raw (m0 :: rest) =
      splitLoop raw ((m0 :: rest).map (fun m => (m.start, pyStrip m.title))) := rfl
  have hfst : ((m0 :: rest).map (fun m => (m.start, pyStrip m.title))).map Prod.fst =
      (m0 :: rest).map HeadingMatch.start := by
    simp [List.map_map]
  have hsnd : ((m0 :: rest).map (fun m => (m.start, pyStrip m.title))).map Prod.snd =
      (m0 :: rest).map (fun m => pyStrip m.title) := by
    simp [List.map_map]
  refine ⟨?_, ?_, ?_, ?_⟩
  · rw [hsplit, splitLoop_texts, hfst]
  · have hchain2 : List.Chain' (· < ·) (m0.start :: rest.map HeadingMatch.start) := by
      simpa using hchain
    have hbound2 : ∀ x ∈ m0.start :: rest.map HeadingMatch.start, x ≤ raw.length := by
      intro x hx
      rcases List.mem_cons.mp hx with h1 | h1
      · subst h1; exact hbound m0 (List.mem_cons_self _ _)
      · obtain ⟨m, hm, hms⟩ := List.mem_map.mp h1
        subst hms
        exact hbound m (List.mem_cons_of_mem _ hm)
    simpa using debateSlices_join raw (rest.map HeadingMatch.start) m0.start hchain2 hbound2
  · rw [hsplit, splitLoop_titles, hsnd]
  · rw [hsplit, splitLoop_length]
    simp

/-- Concrete boundary list for the C2 witness. -/
def coverageWitnessMs : List HeadingMatch :=
  [⟨0, ['T', '1', ' ']⟩, ⟨5, ['T', '2']⟩]

/-- Witness for C2 at a concrete raw text and two boundaries. -/
theorem split_debates_coverage_witness :
    (split_debates ['a', 'b', ' ', 'c', 'd', 'e', 'f', 'g'] coverageWitnessMs).map
        DebateSection.text =
        (debateSlices ['a', 'b', ' ', 'c', 'd', 'e', 'f', 'g']
          (coverageWitnessMs.map HeadingMatch.start)).map pyStrip ∧
      (debateSlices ['a', 'b', ' ', 'c', 'd', 'e', 'f', 'g']
        (coverageWitnessMs.map HeadingMatch.start)).flatten =
        List.drop ((⟨0, ['T', '1', ' ']⟩ : HeadingMatch).start)
          ['a', 'b', ' ', 'c', 'd', 'e', 'f', 'g'] ∧
      (split_debates ['a', 'b', ' ', 'c', 'd', 'e', 'f', 'g'] coverageWitnessMs).map
        DebateSection.title = coverageWitnessMs.map (fun m => pyStrip m.title) ∧
      (split_debates ['a', 'b', ' ', 'c', 'd', 'e', 'f', 'g'] coverageWitnessMs).length =
        coverageWitnessMs.length :=
  split_debates_coverage ['a', 'b', ' ', 'c', 'd', 'e', 'f', 'g'] ⟨0, ['T', '1', ' ']⟩
    [⟨5, ['T', '2']⟩] (by simp [List.chain'_cons])
    (by intro m hm; fin_cases hm <;> decide)

/-- No newline character occurs in the string. -/
def noNewline (l : Str) : Bool :=
  l.all (· ≠ '\n')

/-- No two adjacent characters are both whitespace. -/
def noDoubleWs : Str → Bool
  | [] => true
  | a :: l =>
    (match l.head? with | some d => !(isPySpace a && isPySpace d) | none => true) &&
    noDoubleWs l

/-- The string neither starts nor ends with a whitespace character. -/
def strippedEnds (l : Str) : Bool :=
  (match l.head? with | none => true | some c => !isPySpace c) &&
  (match l.getLast? with | none => true | some c => !isPySpace c)

theorem noDoubleWs_tail {a : Char} {l : Str} (h : noDoubleWs (a :: l) = true) :
    noDoubleWs l = true := by
  simp only [noDoubleWs, Bool.and_eq_true] at h
  exact h.2

theorem noDoubleWs_cons {a : Char} {l : Str}
    (h2 : ∀ d, l.head? = some d → (isPySpace a && isPySpace d) = false)
    (h3 : noDoubleWs l = true) : noDoubleWs (a :: l) = true := by
  simp only [noDoubleWs, Bool.and_eq_true]
  refine ⟨?_, h3⟩
  cases hh : l.head? with
  | none => rfl
  | some d => simp [h2 d hh]

theorem collapseWsRunsAux_skip_head {l : Str} {d : Char}
    (h : (collapseWsRunsAux .skip l).head? = some d) : isPySpace d = false := by
  induction l with
  | nil => simp [collapseWsRunsAux] at h
  | cons c rest ih =>
    rw [collapseWsRunsAux] at h
    cases hc : isPySpace c with
    | true => rw [hc] at h; simp only [if_true] at h; exact ih h
    | false =>
      rw [hc] at h
      simp only [Bool.false_eq_true, if_false, List.head?, Option.some.injEq] at h
      subst h
      exact hc

theorem noDoubleWs_collapseWsRunsAux : ∀ (l : Str) (m : WsMode),
    noDoubleWs (collapseWsRunsAux m l) = true := by
  intro l
  induction l with
  | nil =>
    intro m
    cases m <;> rw [collapseWsRunsAux] <;> rfl
  | cons c rest ih =>
    intro m
    cases m with
    | norm =>
      rw [collapseWsRunsAux]
      cases hc : isPySpace c with
      | true => simp only [if_true]; exact ih (.pend c)
      | false =>
        simp only [Bool.false_eq_true, if_false]
        exact noDoubleWs_cons (fun d hd => by simp [hc]) (ih .norm)
    | pend w =>
      rw [collapseWsRunsAux]
      cases hc : isPySpace c with
      | true =>
        simp only [if_true]
        refine noDoubleWs_cons (fun d hd => ?_) (ih .skip)
        simp [collapseWsRunsAux_skip_head hd]
      | false =>
        simp only [Bool.false_eq_true, if_false]
        refine noDoubleWs_cons (fun d hd => ?_) ?_
        · simp only [List.head?, Option.some.injEq] at hd
          subst hd
          simp [hc]
        · exact noDoubleWs_cons (fun d hd => by simp [hc]) (ih .norm)
    | skip =>
      rw [collapseWsRunsAux]
      cases hc : isPySpace c with
      | true => simp only [if_true]; exact ih .skip
      | false =>
        simp only [Bool.false_eq_true, if_false]
        exact noDoubleWs_cons (fun d hd => by simp [hc]) (ih .norm)

theorem all_collapseWsRunsAux {q : Char → Bool} (hsp : q ' ' = true) : ∀ (l : Str) (m : WsMode),
    l.all q = true → (∀ w, m = .pend w → q w = true) →
    (collapseWsRunsAux m l).all q = true := by
  intro l
  induction l with
  | nil =>
    intro m hall hm
    cases m with
    | norm => rw [collapseWsRunsAux]; rfl
    | pend w => rw [collapseWsRunsAux]; simp [hm w rfl]
    | skip => rw [collapseWsRunsAux]; rfl
  | cons c rest ih =>
    intro m hall hm
    simp only [List.all_cons, Bool.and_eq_true] at hall
    cases m with
    | norm =>
      rw [collapseWsRunsAux]
      cases hc : isPySpace c with
      | true =>
        simp only [if_true]
        exact ih (.pend c) hall.2 (fun w hw => by cases hw; exact hall.1)
      | false =>
        simp only [Bool.false_eq_true, if_false, List.all_cons, hall.1, Bool.true_and]
        exact ih .norm hall.2 (fun w hw => by cases hw)
    | pend w =>
      rw [collapseWsRunsAux]
      cases hc : isPySpace c with
      | true =>
        simp only [if_true, List.all_cons, hsp, Bool.true_and]
        exact ih .skip hall.2 (fun w hw => by cases hw)
      | false =>
        simp only [Bool.false_eq_true, if_false, List.all_cons, hall.1, Bool.true_and,
          hm w rfl]
        exact ih .norm hall.2 (fun w hw => by cases hw)
    | skip =>
      rw [collapseWsRunsAux]
      cases hc : isPySpace c with
      | true => simp only [if_true]; exact ih .skip hall.2 (fun w hw => by cases hw)
      | false =>
        simp only [Bool.false_eq_true, if_false, List.all_cons, hall.1, Bool.true_and]
        exact ih .norm hall.2 (fun w hw => by cases hw)

theorem nlToSpace_no_nl (l : Str) : (nlToSpace l).all (· ≠ '\n') = true := by
  unfold nlToSpace
  rw [List.all_map]
  refine List.all_eq_true.mpr (fun c _ => ?_)
  by_cases hc : c = '\n' <;> simp [hc]

theorem all_dropWhile {q p : Char → Bool} {l : Str} (h : l.all q = true) :
    (l.dropWhile p).all q = true := by
  induction l with
  | nil => exact h
  | cons c rest ih =>
    simp only [List.all_cons, Bool.and_eq_true] at h
    rw [List.dropWhile]
    cases p c with
    | true => exact ih h.2
    | false => simp [h.1, h.2]

theorem all_dropTrailingP {q p : Char → Bool} : ∀ {l : Str}, l.all q = true →
    (dropTrailingP p l).all q = true := by
  intro l
  induction l with
  | nil => intro h; exact h
  | cons c rest ih =>
    intro h
    simp only [List.all_cons, Bool.and_eq_true] at h
    rw [dropTrailingP]
    cases hr : dropTrailingP p rest with
    | nil =>
      cases p c with
      | true => rfl
      | false => simp [h.1]
    | cons d r2 =>
      have := ih h.2
      rw [hr] at this
      simp [h.1, this]

theorem dropTrailingP_head {p : Char → Bool} : ∀ {l : Str} {x : Char} {xs : Str},
    dropTrailingP p l = x :: xs → l.head? = some x := by
  intro l
  cases l with
  | nil => intro x xs h; simp [dropTrailingP] at h
  | cons c rest =>
    intro x xs h
    rw [dropTrailingP] at h
    cases hr : dropTrailingP p rest with
    | nil =>
      rw [hr] at h
      cases hp : p c with
      | true => rw [hp] at h; simp at h
      | false =>
        rw [hp] at h
        simp only [Bool.false_eq_true, if_false, List.cons.injEq] at h
        simp [h.1]
    | cons d r2 =>
      rw [hr] at h
      simp only [List.cons.injEq] at h
      simp [h.1]

theorem noDoubleWs_dropWhile {p : Char → Bool} {l : Str} (h : noDoubleWs l = true) :
    noDoubleWs (l.dropWhile p) = true := by
  induction l with
  | nil => exact h
  | cons c rest ih =>
    rw [List.dropWhile]
    cases p c with
    | true => exact ih (noDoubleWs_tail h)
    | false => exact h

theorem noDoubleWs_dropTrailingP {p : Char → Bool} : ∀ {l : Str}, noDoubleWs l = true →
    noDoubleWs (dropTrailingP p l) = true := by
  intro l
  induction l with
  | nil => intro h; exact h
  | cons c rest ih =>
    intro h
    rw [dropTrailingP]
    cases hr : dropTrailingP p rest with
    | nil =>
      cases p c with
      | true => rfl
      | false => rfl
    | cons d r2 =>
      have hd : rest.head? = some d := dropTrailingP_head hr
      have hnd := ih (noDoubleWs_tail h)
      rw [hr] at hnd
      refine noDoubleWs_cons (fun e he => ?_) hnd
      simp only [List.head?, Option.some.injEq] at he
      subst he
      exact (by
        simp only [noDoubleWs, Bool.and_eq_true] at h
        rcases h with ⟨hp, _⟩
        rw [hd] at hp
        simp only [Bool.not_eq_true'] at hp
        exact hp)

theorem dropTrailingP_last {p : Char → Bool} : ∀ {l : Str} {c : Char},
    (dropTrailingP p l).getLast? = some c → p c = false := by
  intro l
  induction l with
  | nil => intro c h; simp [dropTrailingP] at h
  | cons c0 rest ih =>
    intro c h
    rw [dropTrailingP] at h
    cases hr : dropTrailingP p rest with
    | nil =>
      rw [hr] at h
      cases hp : p c0 with
      | true => rw [hp] at h; simp at h
      | false =>
        rw [hp] at h
        simp only [Bool.false_eq_true, if_false, List.getLast?_singleton,
          Option.some.injEq] at h
        subst h
        exact hp
    | cons d r2 =>
      rw [hr] at h
      rw [List.getLast?_cons_cons] at h
      apply ih
      rw [hr]
      exact h

theorem strippedEnds_pyStrip (l : Str) : strippedEnds (pyStrip l) = true := by
  unfold pyStrip stripBoth strippedEnds
  simp only [Bool.and_eq_true]
  constructor
  · cases hcl : dropTrailingP isPySpace (List.dropWhile isPySpace l) with
    | nil => rfl
    | cons x xs =>
      have hx : (List.dropWhile isPySpace l).head? = some x := dropTrailingP_head hcl
      simp [head_dropWhile_not hx]
  · cases hl : (dropTrailingP isPySpace (List.dropWhile isPySpace l)).getLast? with
    | none => rfl
    | some c => simp [dropTrailingP_last hl]

theorem collapse_paragraphs_clean (t : Str) :
    noNewline (collapse_paragraphs t) = true ∧ noDoubleWs (collapse_paragraphs t) = true ∧
      strippedEnds (collapse_paragraphs t) = true := by
  unfold collapse_paragraphs
  refine ⟨?_, ?_, strippedEnds_pyStrip _⟩
  · have h0 := nlToSpace_no_nl (collapseNlRuns t)
    have h1 := @all_collapseWsRunsAux (fun c => c ≠ '\n') (by decide)
      (nlToSpace (collapseNlRuns t)) WsMode.norm (by simpa using h0) (fun w hw => by cases hw)
    simp only [noNewline, pyStrip, stripBoth, collapseWsRuns]
    exact all_dropTrailingP (all_dropWhile (by simpa using h1))
  · simp only [pyStrip, stripBoth, collapseWsRuns]
    exact noDoubleWs_dropTrailingP (noDoubleWs_dropWhile (noDoubleWs_collapseWsRunsAux _ .norm))

theorem speechesLoop_speech_collapse {sec : Str} : ∀ (idx : List Nat) {turn : SpeechTurn},
    turn ∈ speechesLoop sec idx → ∃ u, turn.speech_text = collapse_paragraphs u := by
  intro idx
  induction idx with
  | nil => intro turn h; simp [speechesLoop] at h
  | cons i rest ih =>
    intro turn h
    cases rest with
    | nil => simp [speechesLoop] at h
    | cons j rest2 =>
      rw [speechesLoop] at h
      rcases List.mem_append.mp h with h1 | h1
      · simp only [speechChunk] at h1
        cases hm : speakerMatchAt (pySlice sec i j) 0 with
        | none => rw [hm] at h1; simp at h1
        | some r =>
          rw [hm] at h1
          obtain ⟨nm, e⟩ := r
          simp only [List.mem_singleton] at h1
          subst h1
          exact ⟨_, rfl⟩
      · exact ih h1

/-- C10: every speech turn produced by `parse_speeches` has a speech text with
no newline, no run of two or more consecutive whitespace characters, and no
leading or trailing whitespace. -/
theorem parse_speeches_speech_text_clean (sec : Str) (turn : SpeechTurn)
    (h : turn ∈ parse_speeches sec) :
    noNewline turn.speech_text = true ∧ noDoubleWs turn.speech_text = true ∧
      strippedEnds turn.speech_text = true := by
  obtain ⟨u, hu⟩ : ∃ u, turn.speech_text = collapse_paragraphs u := by
    unfold parse_speeches at h
    by_cases hidx : ((speakerFindIter sec).map SpeakerHit.start).isEmpty
    · rw [if_pos hidx] at h; cases h
    · rw [if_neg hidx] at h
      exact speechesLoop_speech_collapse _ h
  rw [hu]
  exact collapse_paragraphs_clean u

/-- Witness for C10 at a concrete section with one speaker line and a
paragraph break. -/
theorem parse_speeches_speech_text_clean_witness :
    (⟨"Mr Smith".toList, "Hello <PARA> World".toList⟩ : SpeechTurn) ∈
        parse_speeches "Mr Smith: Hello\n\nWorld".toList ∧
      (noNewline ((⟨"Mr Smith".toList, "Hello <PARA> World".toList⟩ : SpeechTurn).speech_text) =
          true ∧
        noDoubleWs ((⟨"Mr Smith".toList, "Hello <PARA> World".toList⟩ :
          SpeechTurn).speech_text) = true ∧
        strippedEnds ((⟨"Mr Smith".toList, "Hello <PARA> World".toList⟩ :
          SpeechTurn).speech_text) = true) :=
  ⟨by decide, parse_speeches_speech_text_clean ("Mr Smith: Hello\n\nWorld".toList)
    ⟨"Mr Smith".toList, "Hello <PARA> World".toList⟩ (by decide)⟩

theorem alookup_cons_of_pos {α : Type} {p : Str × α} (rest : List (Str × α)) {k : Str}
    (h : p.1 = k) : alookup (p :: rest) k = some p.2 := by
  unfold alookup
  rw [List.find?_cons_of_pos _ (by simp [h])]
  rfl

theorem alookup_cons_of_neg {α : Type} {p : Str × α} (rest : List (Str × α)) {k : Str}
    (h : ¬p.1 = k) : alookup (p :: rest) k = alookup rest k := by
  unfold alookup
  rw [List.find?_cons_of_neg _ (by simp [h])]

theorem alookup_append_of_isSome {α : Type} {l : List (Str × α)} {k : Str}
    (h : (alookup l k).isSome = true) (l2 : List (Str × α)) :
    alookup (l ++ l2) k = alookup l k := by
  induction l with
  | nil => simp [alookup] at h
  | cons p rest ih =>
    by_cases hk : p.1 = k
    · rw [List.cons_append, alookup_cons_of_pos _ hk, alookup_cons_of_pos _ hk]
    · rw [List.cons_append, alookup_cons_of_neg _ hk, alookup_cons_of_neg _ hk]
      rw [alookup_cons_of_neg _ hk] at h
      exact ih h

theorem alookup_append_self {α : Type} {l : List (Str × α)} {k : Str}
    (h : alookup l k = none) (v : α) :
    alookup (l ++ [(k, v)]) k = some v := by
  induction l with
  | nil => simp [alookup, List.find?]
  | cons p rest ih =>
    by_cases hk : p.1 = k
    · rw [alookup_cons_of_pos _ hk] at h
      cases h
    · rw [alookup_cons_of_neg _ hk] at h
      rw [List.cons_append, alookup_cons_of_neg _ hk]
      exact ih h

theorem alookup_append_isSome {α : Type} {l : List (Str × α)} {k k2 : Str} {v : α}
    (h : (alookup (l ++ [(k2, v)]) k).isSome = true) :
    (alookup l k).isSome = true ∨ k = k2 := by
  induction l with
  | nil =>
    simp only [List.nil_append] at h
    by_cases hk : k2 = k
    · right; exact hk.symm
    · rw [alookup_cons_of_neg _ hk] at h
      simp [alookup] at h
  | cons p rest ih =>
    by_cases hk : p.1 = k
    · left; rw [alookup_cons_of_pos _ hk]; rfl
    · rw [List.cons_append, alookup_cons_of_neg _ hk] at h
      rcases ih h with h1 | h1
      · left; rw [alookup_cons_of_neg _ hk]; exact h1
      · right; exact h1

theorem alookup_aupdate_self {α : Type} (l : List (Str × α)) (k : Str) (f : α → α) :
    alookup (aupdate l k f) k = (alookup l k).map f := by
  induction l with
  | nil => rfl
  | cons p rest ih =>
    by_cases hk : p.1 = k
    · rw [aupdate, if_pos hk, @alookup_cons_of_pos α (p.1, f p.2) rest k hk,
        alookup_cons_of_pos rest hk]
      rfl
    · rw [aupdate, if_neg hk, alookup_cons_of_neg (aupdate rest k f) hk,
        alookup_cons_of_neg rest hk]
      exact ih

theorem alookup_aupdate_other {α : Type} (l : List (Str × α)) {k k2 : Str} (f : α → α)
    (h : k ≠ k2) : alookup (aupdate l k2 f) k = alookup l k := by
  induction l with
  | nil => rfl
  | cons p rest ih =>
    by_cases hk2 : p.1 = k2
    · have hk : ¬p.1 = k := by rw [hk2]; exact fun he => h he.symm
      rw [aupdate, if_pos hk2, @alookup_cons_of_neg α (p.1, f p.2) rest k hk,
        alookup_cons_of_neg rest hk]
    · rw [aupdate, if_neg hk2]
      by_cases hk : p.1 = k
      · rw [alookup_cons_of_pos _ hk, alookup_cons_of_pos rest hk]
      · rw [alookup_cons_of_neg _ hk, alookup_cons_of_neg rest hk]
        exact ih

theorem sumCounts_append (l : List (Str × Cluster)) (k : Str) (c : Cluster) :
    sumCounts (l ++ [(k, c)]) = sumCounts l + c.count := by
  simp [sumCounts]

theorem sumCounts_aupdate {l : List (Str × Cluster)} {k : Str} {f : Cluster → Cluster}
    (hsome : (alookup l k).isSome = true)
    (hf : ∀ cl, (f cl).count = cl.count + 1) :
    sumCounts (aupdate l k f) = sumCounts l + 1 := by
  induction l with
  | nil => simp [alookup] at hsome
  | cons p rest ih =>
    by_cases hk : p.1 = k
    · rw [aupdate, if_pos hk]
      simp only [sumCounts, List.map_cons, List.sum_cons, hf]
      omega
    · rw [aupdate, if_neg hk]
      rw [alookup_cons_of_neg _ hk] at hsome
      have := ih hsome
      simp only [sumCounts, List.map_cons, List.sum_cons] at this ⊢
      omega

theorem updateCluster_count (e : Mention) (cl : Cluster) :
    (updateCluster e cl).count = cl.count + 1 := by
  unfold updateCluster
  dsimp only
  split <;> rfl

theorem sumCounts_addMention (c : List (Str × Str)) (out : List (Str × Cluster)) (e : Mention) :
    sumCounts (addMention c out e) = sumCounts out + 1 := by
  simp only [addMention]
  by_cases hp : (alookup out ((alookup c (normalize_key e.text)).getD (normalize_key e.text))).isSome = true
  · rw [if_pos hp]
    exact sumCounts_aupdate hp (fun cl => updateCluster_count e cl)
  · rw [if_neg hp]
    have hnone : alookup out ((alookup c (normalize_key e.text)).getD (normalize_key e.text)) =
        none := by
      cases hx : alookup out ((alookup c (normalize_key e.text)).getD (normalize_key e.text)) with
      | none => rfl
      | some v => rw [hx] at hp; simp at hp
    have hsome2 : (alookup
        (out ++ [((alookup c (normalize_key e.text)).getD (normalize_key e.text),
          ⟨e.text, e.type, [], 0, none⟩)])
        ((alookup c (normalize_key e.text)).getD (normalize_key e.text))).isSome = true := by
      rw [alookup_append_self hnone]
      rfl
    rw [sumCounts_aupdate hsome2 (fun cl => updateCluster_count e cl), sumCounts_append]
    simp

theorem sumCounts_foldl (c : List (Str × Str)) :
    ∀ (l : List Mention) (out : List (Str × Cluster)),
      sumCounts (l.foldl (addMention c) out) = sumCounts out + l.length := by
  intro l
  induction l with
  | nil => intro out; simp
  | cons e rest ih =>
    intro out
    simp only [List.foldl_cons, List.length_cons]
    rw [ih, sumCounts_addMention]
    omega

theorem sumCounts_map_finalize (out : List (Str × Cluster)) :
    sumCounts (out.map (fun p => (p.1, finalizeCluster p.2))) = sumCounts out := by
  induction out with
  | nil => rfl
  | cons p rest ih =>
    simp only [sumCounts, List.map_cons, List.sum_cons] at ih ⊢
    rw [ih]
    simp [finalizeCluster]

/-- C7: the sum of the cluster counts of `build_entity_map` equals the number
of input mentions, for every input order and threshold; in particular the
total is invariant under permuting the input (even though cluster boundaries
may differ). -/
theorem build_entity_map_count_conservation :
    (∀ (es : List Mention) (th : PyFloat), sumCounts (build_entity_map es th) = es.length) ∧
    (∀ (es es2 : List Mention) (th th2 : PyFloat), es.Perm es2 →
      sumCounts (build_entity_map es2 th2) = sumCounts (build_entity_map es th)) := by
  have hmain : ∀ (es : List Mention) (th : PyFloat),
      sumCounts (build_entity_map es th) = es.length := by
    intro es th
    unfold build_entity_map
    rw [sumCounts_map_finalize, sumCounts_foldl]
    simp [sumCounts]
  exact ⟨hmain, fun es es2 th th2 hp => by rw [hmain, hmain, hp.length_eq]⟩

/-- Witness mention: NHS with type ORG and score 0.9. -/
def mNHS : Mention := ⟨['N', 'H', 'S'], ['O', 'R', 'G'], ⟨9, 10⟩⟩

/-- Witness mention: N.H.S. with type MISC and score 0.95. -/
def mNHS2 : Mention := ⟨['N', '.', 'H', '.', 'S', '.'], ['M', 'I', 'S', 'C'], ⟨95, 100⟩⟩

/-- Witness for C7 at a concrete two-mention input and its swap. -/
theorem build_entity_map_count_conservation_witness :
    sumCounts (build_entity_map [mNHS, mNHS2] ⟨92, 1⟩) = 2 ∧
      sumCounts (build_entity_map [mNHS2, mNHS] ⟨60, 1⟩) =
        sumCounts (build_entity_map [mNHS, mNHS2] ⟨92, 1⟩) := by
  refine ⟨?_, ?_⟩
  · have h := build_entity_map_count_conservation.1 [mNHS, mNHS2] ⟨92, 1⟩
    simpa using h
  · exact build_entity_map_count_conservation.2 [mNHS, mNHS2] [mNHS2, mNHS] ⟨92, 1⟩ ⟨60, 1⟩
      (List.Perm.swap mNHS2 mNHS [])

theorem mem_insertStr {x y : Str} : ∀ {l : List Str}, y ∈ insertStr x l ↔ y = x ∨ y ∈ l := by
  intro l
  induction l with
  | nil => simp [insertStr]
  | cons z rest ih =>
    rw [insertStr]
    cases hlt : strLt x z with
    | true => simp
    | false =>
      simp only [Bool.false_eq_true, if_false, List.mem_cons, ih]
      tauto

theorem mem_sortStrs {y : Str} : ∀ {l : List Str}, y ∈ sortStrs l ↔ y ∈ l := by
  intro l
  induction l with
  | nil => simp [sortStrs]
  | cons z rest ih =>
    unfold sortStrs at ih ⊢
    simp only [List.foldr_cons]
    rw [mem_insertStr]
    simp only [List.mem_cons, ih]

theorem alookup_map_finalize : ∀ (out : List (Str × Cluster)) (k : Str),
    alookup (out.map (fun p => (p.1, finalizeCluster p.2))) k =
      (alookup out k).map finalizeCluster := by
  intro out k
  induction out with
  | nil => rfl
  | cons p rest ih =>
    by_cases hk : p.1 = k
    · rw [List.map_cons, @alookup_cons_of_pos _ (p.1, finalizeCluster p.2) _ k hk,
        alookup_cons_of_pos rest hk]
      rfl
    · rw [List.map_cons, @alookup_cons_of_neg _ (p.1, finalizeCluster p.2) _ k hk,
        alookup_cons_of_neg rest hk]
      exact ih

theorem updateCluster_mentions (e : Mention) (cl : Cluster) :
    (updateCluster e cl).mentions = cl.mentions ++ [e.text] := by
  unfold updateCluster
  dsimp only
  split <;> rfl

theorem addMention_new_member (c : List (Str × Str)) (out : List (Str × Cluster)) (e : Mention) :
    ∃ cl, alookup (addMention c out e) (assignedKey c e) = some cl ∧ e.text ∈ cl.mentions := by
  simp only [addMention, assignedKey]
  by_cases hp : (alookup out ((alookup c (normalize_key e.text)).getD (normalize_key e.text))).isSome = true
  · rw [if_pos hp]
    obtain ⟨cl0, hcl0⟩ := Option.isSome_iff_exists.mp hp
    rw [alookup_aupdate_self, hcl0]
    refine ⟨_, rfl, ?_⟩
    rw [updateCluster_mentions e cl0]
    simp
  · rw [if_neg hp]
    have hnone : alookup out ((alookup c (normalize_key e.text)).getD (normalize_key e.text)) =
        none := by
      cases hx : alookup out ((alookup c (normalize_key e.text)).getD (normalize_key e.text)) with
      | none => rfl
      | some v => rw [hx] at hp; simp at hp
    rw [alookup_aupdate_self, alookup_append_self hnone]
    refine ⟨_, rfl, ?_⟩
    rw [updateCluster_mentions e ⟨e.text, e.type, [], 0, none⟩]
    simp

theorem addMention_old_member (c : List (Str × Str)) (out : List (Str × Cluster)) (e : Mention)
    {k : Str} {cl : Cluster} (h : alookup out k = some cl) :
    ∃ cl2, alookup (addMention c out e) k = some cl2 ∧ ∀ x ∈ cl.mentions, x ∈ cl2.mentions := by
  simp only [addMention]
  have hsome : (alookup out k).isSome = true := by rw [h]; rfl
  have hout2 : ∀ out2 : List (Str × Cluster),
      (out2 = out ∨ ∃ q, out2 = out ++ [q]) → alookup out2 k = some cl := by
    intro out2 h2
    rcases h2 with h2 | ⟨q, h2⟩
    · rw [h2]; exact h
    · rw [h2, alookup_append_of_isSome hsome]; exact h
  by_cases hk : k = (alookup c (normalize_key e.text)).getD (normalize_key e.text)
  · by_cases hp : (alookup out ((alookup c (normalize_key e.text)).getD
        (normalize_key e.text))).isSome = true
    · rw [if_pos hp, ← hk, alookup_aupdate_self, h]
      refine ⟨_, rfl, fun x hx => ?_⟩
      rw [updateCluster_mentions e cl]
      exact List.mem_append_left _ hx
    · rw [if_neg hp, ← hk, alookup_aupdate_self,
        alookup_append_of_isSome hsome _, h]
      refine ⟨_, rfl, fun x hx => ?_⟩
      rw [updateCluster_mentions e cl]
      exact List.mem_append_left _ hx
  · by_cases hp : (alookup out ((alookup c (normalize_key e.text)).getD
        (normalize_key e.text))).isSome = true
    · rw [if_pos hp, alookup_aupdate_other _ _ hk, h]
      exact ⟨cl, rfl, fun x hx => hx⟩
    · rw [if_neg hp, alookup_aupdate_other _ _ hk, alookup_append_of_isSome hsome _, h]
      exact ⟨cl, rfl, fun x hx => hx⟩

theorem foldl_member (c : List (Str × Str)) :
    ∀ (l : List Mention) (out : List (Str × Cluster)) (e : Mention),
      (e ∈ l ∨ ∃ cl, alookup out (assignedKey c e) = some cl ∧ e.text ∈ cl.mentions) →
      ∃ cl, alookup (l.foldl (addMention c) out) (assignedKey c e) = some cl ∧
        e.text ∈ cl.mentions := by
  intro l
  induction l with
  | nil =>
    intro out e h
    rcases h with h | h
    · cases h
    · exact h
  | cons x rest ih =>
    intro out e h
    simp only [List.foldl_cons]
    rcases h with h | ⟨cl, hcl, hm⟩
    · rcases List.mem_cons.mp h with he | he
      · subst he
        exact ih _ _ (Or.inr (addMention_new_member c out e))
      · exact ih _ _ (Or.inl he)
    · obtain ⟨cl2, hcl2, hsub⟩ := addMention_old_member c out x hcl
      exact ih _ _ (Or.inr ⟨cl2, hcl2, hsub _ hm⟩)

theorem build_entity_map_member (es : List Mention) (th : PyFloat) (e : Mention) (he : e ∈ es) :
    ∃ cl, alookup (build_entity_map es th)
        (assignedKey (build_canonical th (es.map Mention.text)) e) = some cl ∧
      e.text ∈ cl.mentions := by
  unfold build_entity_map
  obtain ⟨cl, hcl, hm⟩ :=
    foldl_member (build_canonical th (es.map Mention.text)) es [] e (Or.inl he)
  refine ⟨finalizeCluster cl, ?_, ?_⟩
  · rw [alookup_map_finalize, hcl]
    rfl
  · unfold finalizeCluster
    simp only
    rw [mem_sortStrs, List.mem_dedup]
    exact hm

/-- C6: two mentions whose normalized keys are byte-identical are always filed
into the same cluster of `build_entity_map`, for every input sequence and every
fuzzy threshold: there is one cluster whose mention set contains both raw
texts. -/
theorem build_entity_map_dedup (es : List Mention) (th : PyFloat) (e1 e2 : Mention)
    (h1 : e1 ∈ es) (h2 : e2 ∈ es)
    (hk : normalize_key e1.text = normalize_key e2.text) :
    ∃ k cl, alookup (build_entity_map es th) k = some cl ∧
      e1.text ∈ cl.mentions ∧ e2.text ∈ cl.mentions := by
  have hak : assignedKey (build_canonical th (es.map Mention.text)) e1 =
      assignedKey (build_canonical th (es.map Mention.text)) e2 := by
    unfold assignedKey
    rw [hk]
  obtain ⟨cl1, hcl1, hm1⟩ := build_entity_map_member es th e1 h1
  obtain ⟨cl2, hcl2, hm2⟩ := build_entity_map_member es th e2 h2
  rw [hak] at hcl1
  rw [hcl1] at hcl2
  cases hcl2
  exact ⟨_, cl1, hcl1, hm1, hm2⟩

/-- Witness mention whose text differs from mNHS but shares its normalized
key: the exclamation mark is stripped by `normalize_key`. -/
def mNHSexcl : Mention := ⟨['N', 'H', 'S', '!'], ['O', 'R', 'G'], ⟨1, 2⟩⟩

/-- Witness for C6 at two concrete mentions with equal normalized keys. -/
theorem build_entity_map_dedup_witness :
    ∃ k cl, alookup (build_entity_map [mNHS, mNHS2, mNHSexcl] ⟨92, 1⟩) k = some cl ∧
      mNHS.text ∈ cl.mentions ∧ mNHSexcl.text ∈ cl.mentions :=
  build_entity_map_dedup [mNHS, mNHS2, mNHSexcl] ⟨92, 1⟩ mNHS mNHSexcl
    (by decide) (by decide) (by decide)

theorem registerOne_preserves {th : PyFloat} {c : List (Str × Str)} {t : Str} {k : Str}
    (h : (alookup c k).isSome = true) :
    alookup (registerOne th c t) k = alookup c k := by
  simp only [registerOne]
  by_cases hp : (alookup c (normalize_key t)).isSome = true
  · rw [if_pos hp]
  · rw [if_neg hp]
    exact alookup_append_of_isSome h _

theorem registerOne_self (th : PyFloat) (c : List (Str × Str)) (t : Str) :
    (alookup (registerOne th c t) (normalize_key t)).isSome = true := by
  simp only [registerOne]
  by_cases hp : (alookup c (normalize_key t)).isSome = true
  · rw [if_pos hp]
    exact hp
  · rw [if_neg hp]
    have hnone : alookup c (normalize_key t) = none := by
      cases hx : alookup c (normalize_key t) with
      | none => rfl
      | some v => rw [hx] at hp; simp at hp
    rw [alookup_append_self hnone]
    rfl

theorem build_canonical_total_aux (th : PyFloat) :
    ∀ (l : List Str) (c0 : List (Str × Str)) (t : Str),
      (t ∈ l ∨ (alookup c0 (normalize_key t)).isSome = true) →
      (alookup (l.foldl (registerOne th) c0) (normalize_key t)).isSome = true := by
  intro l
  induction l with
  | nil =>
    intro c0 t h
    rcases h with h | h
    · cases h
    · exact h
  | cons x rest ih =>
    intro c0 t h
    simp only [List.foldl_cons]
    rcases h with h | h
    · rcases List.mem_cons.mp h with he | he
      · subst he
        exact ih _ _ (Or.inr (registerOne_self th c0 t))
      · exact ih _ _ (Or.inl he)
    · exact ih _ _ (Or.inr (by rw [registerOne_preserves h]; exact h))

theorem build_canonical_total (th : PyFloat) (texts : List Str) (t : Str) (h : t ∈ texts) :
    (alookup (build_canonical th texts) (normalize_key t)).isSome = true :=
  build_canonical_total_aux th texts [] t (Or.inl h)

theorem alookup_aupdate_isSome {α : Type} (l : List (Str × α)) (k2 : Str) (f : α → α)
    (k : Str) : (alookup (aupdate l k2 f) k).isSome = (alookup l k).isSome := by
  by_cases hk : k = k2
  · subst hk
    rw [alookup_aupdate_self]
    cases alookup l k <;> rfl
  · rw [alookup_aupdate_other _ _ hk]

theorem addMention_keys (c : List (Str × Str)) (out : List (Str × Cluster)) (e : Mention)
    (k : Str) (h : (alookup (addMention c out e) k).isSome = true) :
    (alookup out k).isSome = true ∨ k = assignedKey c e := by
  simp only [addMention] at h
  by_cases hp : (alookup out ((alookup c (normalize_key e.text)).getD
      (normalize_key e.text))).isSome = true
  · rw [if_pos hp, alookup_aupdate_isSome] at h
    exact Or.inl h
  · rw [if_neg hp, alookup_aupdate_isSome] at h
    rcases alookup_append_isSome h with h1 | h1
    · exact Or.inl h1
    · exact Or.inr h1

theorem foldl_keys (c : List (Str × Str)) :
    ∀ (l : List Mention) (out : List (Str × Cluster)) (k : Str),
      (alookup (l.foldl (addMention c) out) k).isSome = true →
      (alookup out k).isSome = true ∨ ∃ e, e ∈ l ∧ k = assignedKey c e := by
  intro l
  induction l with
  | nil =>
    intro out k h
    exact Or.inl h
  | cons x rest ih =>
    intro out k h
    simp only [List.foldl_cons] at h
    rcases ih _ _ h with h1 | ⟨e, he, hk⟩
    · rcases addMention_keys c out x k h1 with h2 | h2
      · exact Or.inl h2
      · exact Or.inr ⟨x, List.mem_cons_self _ _, h2⟩
    · exact Or.inr ⟨e, List.mem_cons_of_mem _ he, hk⟩

/-- C1 (amended): every key of the returned entity map is the registered
(adopted) key of some processed mention: the registry maps that mention's
normalized key to this exact map key.  The adopted key need not itself be
canonical (it need not map to itself in the registry), because the fuzzy
comparison ranges over every registered key, aliases included, not only over
canonical keys. -/
theorem build_entity_map_keys_registered (es : List Mention) (th : PyFloat) (k : Str)
    (h : (alookup (build_entity_map es th) k).isSome = true) :
    ∃ e, e ∈ es ∧
      alookup (build_canonical th (es.map Mention.text)) (normalize_key e.text) = some k := by
  unfold build_entity_map at h
  rw [alookup_map_finalize] at h
  have h2 : (alookup (es.foldl (addMention (build_canonical th (es.map Mention.text))) []) k).isSome = true := by
    cases hx : alookup (es.foldl (addMention (build_canonical th (es.map Mention.text))) []) k with
    | none => rw [hx] at h; simp at h
    | some v => rfl
  rcases foldl_keys _ es [] k h2 with h3 | ⟨e, he, hk⟩
  · simp [alookup] at h3
  · refine ⟨e, he, ?_⟩
    have htot := build_canonical_total th (es.map Mention.text) e.text
      (List.mem_map_of_mem Mention.text he)
    obtain ⟨v, hv⟩ := Option.isSome_iff_exists.mp htot
    rw [hk]
    unfold assignedKey
    rw [hv]
    rfl

/-- Counterexample mention with a 13-character text. -/
def mLong1 : Mention :=
  ⟨['a', 'b', 'c', 'd', 'e', 'f', 'g', 'h', 'i', 'j', 'k', 'l', 'm'], ['T'], ⟨1, 2⟩⟩

/-- Counterexample mention with a 12-character text. -/
def mLong2 : Mention :=
  ⟨['a', 'b', 'c', 'd', 'e', 'f', 'g', 'h', 'i', 'j', 'k', 'l'], ['T'], ⟨1, 2⟩⟩

/-- Counterexample mention with an 11-character text. -/
def mLong3 : Mention :=
  ⟨['a', 'b', 'c', 'd', 'e', 'f', 'g', 'h', 'i', 'j', 'k'], ['T'], ⟨1, 2⟩⟩

/-- C1 counterexample: at the default threshold 92, the second text registers
as an alias of the first (similarity 96), and the third then fuzzy-matches the
alias best (95.65 versus 91.67 against the canonical key), so the code adopts
the alias.  The returned entity map therefore carries the key "abcdefghijkl",
which does not map to itself in the registry: it maps to "abcdefghijklm". -/
theorem build_entity_map_key_not_canonical :
    (alookup (build_entity_map [mLong1, mLong2, mLong3] ⟨92, 1⟩)
        ['a', 'b', 'c', 'd', 'e', 'f', 'g', 'h', 'i', 'j', 'k', 'l']).isSome = true ∧
      alookup (build_canonical ⟨92, 1⟩ ([mLong1, mLong2, mLong3].map Mention.text))
          ['a', 'b', 'c', 'd', 'e', 'f', 'g', 'h', 'i', 'j', 'k', 'l'] =
        some ['a', 'b', 'c', 'd', 'e', 'f', 'g', 'h', 'i', 'j', 'k', 'l', 'm'] ∧
      (['a', 'b', 'c', 'd', 'e', 'f', 'g', 'h', 'i', 'j', 'k', 'l'] : Str) ≠
        ['a', 'b', 'c', 'd', 'e', 'f', 'g', 'h', 'i', 'j', 'k', 'l', 'm'] := by decide

/-- Witness for C1 (amended) at a concrete single-mention input. -/
theorem build_entity_map_keys_registered_witness :
    ∃ e, e ∈ [mNHS] ∧
      alookup (build_canonical ⟨92, 1⟩ ([mNHS].map Mention.text))
        (normalize_key e.text) = some ['n', 'h', 's'] :=
  build_entity_map_keys_registered [mNHS] ⟨92, 1⟩ ['n', 'h', 's'] (by decide)

theorem alookup_append_ne {α : Type} {l : List (Str × α)} {k k2 : Str} {v : α}
    (h : k ≠ k2) : alookup (l ++ [(k2, v)]) k = alookup l k := by
  induction l with
  | nil =>
    rw [List.nil_append, @alookup_cons_of_neg α (k2, v) [] k (fun he => h he.symm)]
  | cons p rest ih =>
    by_cases hk : p.1 = k
    · rw [List.cons_append, alookup_cons_of_pos _ hk, alookup_cons_of_pos rest hk]
    · rw [List.cons_append, alookup_cons_of_neg _ hk, alookup_cons_of_neg rest hk]
      exact ih

theorem pfLt_zero_iff {s : PyFloat} : pfLt pfZero s = true ↔ 0 < s.num := by
  simp [pfLt, pfZero]

theorem pfLe_zero_iff {s : PyFloat} : pfLe pfZero s = true ↔ 0 ≤ s.num := by
  simp [pfLe, pfZero]

theorem pfLt_negOne_iff {s : PyFloat} : pfLt pfNegOne s = true ↔ -(s.den : Int) < s.num := by
  simp [pfLt, pfNegOne]

theorem pfLt_negOne_of_nonneg {s : PyFloat} (hd : 0 < s.den) (hn : 0 ≤ s.num) :
    pfLt pfNegOne s = true := by
  rw [pfLt_negOne_iff]
  have : (0 : Int) < (s.den : Int) := by exact_mod_cast hd
  omega

theorem pfLt_pos_trans {m e : PyFloat} (hm : 0 < m.num) (hmd : 0 < m.den) (hed : 0 < e.den)
    (h : pfLt m e = true) : 0 < e.num := by
  simp only [pfLt, decide_eq_true_eq] at h
  have h1 : (0 : Int) < (e.den : Int) := by exact_mod_cast hed
  have h2 : (0 : Int) < (m.den : Int) := by exact_mod_cast hmd
  nlinarith

theorem pfLt_of_zero_num {m e : PyFloat} (hm : m.num = 0) (hmd : 0 < m.den) :
    pfLt m e = true ↔ 0 < e.num := by
  simp only [pfLt, hm, Int.zero_mul, decide_eq_true_eq]
  have h2 : (0 : Int) < (m.den : Int) := by exact_mod_cast hmd
  constructor
  · intro h
    nlinarith
  · intro h
    exact Int.mul_pos h h2

theorem bestMention_append (l : List Mention) (x : Mention) :
    bestMention (l ++ [x]) = some (match bestMention l with
      | none => x
      | some b => if pfLt b.score x.score then x else b) := by
  cases l with
  | nil => rfl
  | cons e rest =>
    simp only [bestMention, List.cons_append, List.foldl_append, List.foldl_cons,
      List.foldl_nil]

theorem bestMention_mem : ∀ {l : List Mention} {m : Mention}, bestMention l = some m → m ∈ l := by
  intro l
  induction l using List.reverseRecOn with
  | nil => intro m h; cases h
  | append_singleton rest x ih =>
    intro m h
    rw [bestMention_append] at h
    cases hb : bestMention rest with
    | none =>
      rw [hb] at h
      simp only [Option.some.injEq] at h
      subst h
      exact List.mem_append_right _ (List.mem_singleton_self _)
    | some b =>
      rw [hb] at h
      simp only [Option.some.injEq] at h
      by_cases hc : pfLt b.score x.score = true
      · rw [if_pos hc] at h
        subst h
        exact List.mem_append_right _ (List.mem_singleton_self _)
      · rw [if_neg hc] at h
        subst h
        exact List.mem_append_left _ (ih hb)

theorem membersOf_append (c : List (Str × Str)) (pre : List Mention) (e : Mention) (k : Str) :
    membersOf c (pre ++ [e]) k =
      membersOf c pre k ++ (if assignedKey c e = k then [e] else []) := by
  unfold membersOf
  rw [List.filter_append]
  congr 1
  by_cases hk : assignedKey c e = k
  · simp [List.filter, hk]
  · simp [List.filter, hk]

theorem membersOf_subset (c : List (Str × Str)) (pre : List Mention) (k : Str) :
    ∀ m ∈ membersOf c pre k, m ∈ pre := by
  intro m hm
  exact List.mem_of_mem_filter hm

theorem updateCluster_char (e : Mention) (cl : Cluster) :
    updateCluster e cl =
      if pfLt pfZero e.score && pfLt (cl.best_score.getD pfNegOne) e.score then
        ⟨cl.canonical, e.type, cl.mentions ++ [e.text], cl.count + 1, some e.score⟩
      else ⟨cl.canonical, cl.type, cl.mentions ++ [e.text], cl.count + 1, cl.best_score⟩ := by
  unfold updateCluster
  by_cases hc : (pfLt pfZero e.score && pfLt (cl.best_score.getD pfNegOne) e.score) = true
  · simp only [hc, if_true]
  · simp only [hc, Bool.false_eq_true, if_false]

theorem addMention_lookup_self (c : List (Str × Str)) (out : List (Str × Cluster)) (e : Mention) :
    ∃ cl0,
      (alookup out (assignedKey c e) = some cl0 ∨
        (alookup out (assignedKey c e) = none ∧ cl0 = ⟨e.text, e.type, [], 0, none⟩)) ∧
      alookup (addMention c out e) (assignedKey c e) = some (updateCluster e cl0) := by
  simp only [addMention, assignedKey]
  by_cases hp : (alookup out ((alookup c (normalize_key e.text)).getD
      (normalize_key e.text))).isSome = true
  · obtain ⟨cl0, hcl0⟩ := Option.isSome_iff_exists.mp hp
    refine ⟨cl0, Or.inl hcl0, ?_⟩
    rw [if_pos hp, alookup_aupdate_self, hcl0]
    rfl
  · have hnone : alookup out ((alookup c (normalize_key e.text)).getD (normalize_key e.text)) =
        none := by
      cases hx : alookup out ((alookup c (normalize_key e.text)).getD (normalize_key e.text)) with
      | none => rfl
      | some v => rw [hx] at hp; simp at hp
    refine ⟨⟨e.text, e.type, [], 0, none⟩, Or.inr ⟨hnone, rfl⟩, ?_⟩
    rw [if_neg hp, alookup_aupdate_self, alookup_append_self hnone]
    rfl

theorem addMention_lookup_other (c : List (Str × Str)) (out : List (Str × Cluster)) (e : Mention)
    {k : Str} (h : k ≠ assignedKey c e) :
    alookup (addMention c out e) k = alookup out k := by
  simp only [addMention]
  simp only [assignedKey] at h
  by_cases hp : (alookup out ((alookup c (normalize_key e.text)).getD
      (normalize_key e.text))).isSome = true
  · rw [if_pos hp, alookup_aupdate_other _ _ h]
  · rw [if_neg hp, alookup_aupdate_other _ _ h, alookup_append_ne h]

/-- Validity of a modelled score: positive denominator and value in [0, 1]. -/
def validScore (s : PyFloat) : Prop :=
  0 < s.den ∧ pfLe pfZero s = true ∧ pfLe s pfOne = true

instance (s : PyFloat) : Decidable (validScore s) := by
  unfold validScore
  infer_instance

/-- The invariant of the second loop of `build_entity_map`: each registered
cluster's type is the type of the earliest maximal-score member filed under its
key so far, and its transient best score records that member's score when
positive. -/
def TypeInv (c : List (Str × Str)) (pre : List Mention) (out : List (Str × Cluster)) : Prop :=
  ∀ k : Str,
    (alookup out k = none → membersOf c pre k = []) ∧
    ∀ cl, alookup out k = some cl →
      ∃ m, bestMention (membersOf c pre k) = some m ∧ cl.type = m.type ∧
        cl.best_score = (if 0 < m.score.num then some m.score else none)

theorem typeInv_init (c : List (Str × Str)) : TypeInv c [] [] :=
  fun _ => ⟨fun _ => rfl, fun cl hcl => by cases hcl⟩

theorem typeInv_step (c : List (Str × Str)) (pre : List Mention) (out : List (Str × Cluster))
    (e : Mention) (he : validScore e.score) (hpre : ∀ m ∈ pre, validScore m.score)
    (hinv : TypeInv c pre out) : TypeInv c (pre ++ [e]) (addMention c out e) := by
  intro k
  by_cases hk : k = assignedKey c e
  · subst hk
    obtain ⟨cl0, hcl0or, hlook⟩ := addMention_lookup_self c out e
    constructor
    · intro hnone
      rw [hlook] at hnone
      cases hnone
    · intro cl hcl
      rw [hlook] at hcl
      have hcleq : cl = updateCluster e cl0 := by
        injection hcl with h1
        exact h1.symm
      subst hcleq
      rw [membersOf_append, if_pos rfl]
      have hez : 0 ≤ e.score.num := pfLe_zero_iff.mp he.2.1
      have hng : pfLt pfNegOne e.score = true := pfLt_negOne_of_nonneg he.1 hez
      rcases hcl0or with hsome | ⟨hnone0, hinit⟩
      · obtain ⟨m0, hbm, htype, hbs⟩ := (hinv _).2 cl0 hsome
        have hm0v : validScore m0.score :=
          hpre m0 (membersOf_subset c pre _ m0 (bestMention_mem hbm))
        have hm0z : 0 ≤ m0.score.num := pfLe_zero_iff.mp hm0v.2.1
        rw [bestMention_append, hbm]
        by_cases hm0pos : 0 < m0.score.num
        · rw [if_pos hm0pos] at hbs
          by_cases hlt : pfLt m0.score e.score = true
          · have hepos : 0 < e.score.num := pfLt_pos_trans hm0pos hm0v.1 he.1 hlt
            have hcond : (pfLt pfZero e.score &&
                pfLt (cl0.best_score.getD pfNegOne) e.score) = true := by
              rw [hbs]
              simp [pfLt_zero_iff.mpr hepos, hlt]
            rw [updateCluster_char, if_pos hcond]
            exact ⟨e, by simp [hlt], rfl, by rw [if_pos hepos]⟩
          · have hcond : (pfLt pfZero e.score &&
                pfLt (cl0.best_score.getD pfNegOne) e.score) = false := by
              rw [hbs]
              simp only [Option.getD_some]
              cases hx : pfLt m0.score e.score with
              | true => exact absurd hx hlt
              | false => simp
            rw [updateCluster_char, hcond]
            simp only [Bool.false_eq_true, if_false]
            exact ⟨m0, by simp [hlt], htype, by simp [hbs, hm0pos]⟩
        · have hm0zero : m0.score.num = 0 := by omega
          rw [if_neg hm0pos] at hbs
          have hiff := @pfLt_of_zero_num m0.score e.score hm0zero hm0v.1
          by_cases hepos : 0 < e.score.num
          · have hlt : pfLt m0.score e.score = true := hiff.mpr hepos
            have hcond : (pfLt pfZero e.score &&
                pfLt (cl0.best_score.getD pfNegOne) e.score) = true := by
              rw [hbs]
              simp [pfLt_zero_iff.mpr hepos, hng]
            rw [updateCluster_char, if_pos hcond]
            exact ⟨e, by simp [hlt], rfl, by rw [if_pos hepos]⟩
          · have hlt : pfLt m0.score e.score = false := by
              cases hx : pfLt m0.score e.score with
              | true => exact absurd (hiff.mp hx) hepos
              | false => rfl
            have hcond : (pfLt pfZero e.score &&
                pfLt (cl0.best_score.getD pfNegOne) e.score) = false := by
              cases hx : pfLt pfZero e.score with
              | true => exact absurd (pfLt_zero_iff.mp hx) hepos
              | false => simp
            rw [updateCluster_char, hcond]
            simp only [Bool.false_eq_true, if_false]
            exact ⟨m0, by simp [hlt], htype, by simp [hbs, hm0pos]⟩
      · have hemp : membersOf c pre (assignedKey c e) = [] := (hinv _).1 hnone0
        subst hinit
        rw [hemp, List.nil_append]
        by_cases hepos : 0 < e.score.num
        · have hcond : (pfLt pfZero e.score &&
              pfLt ((none : Option PyFloat).getD pfNegOne) e.score) = true := by
            simp [pfLt_zero_iff.mpr hepos, hng]
          rw [updateCluster_char]
          simp only [Option.getD_none] at hcond ⊢
          rw [if_pos hcond]
          exact ⟨e, rfl, rfl, by rw [if_pos hepos]⟩
        · have hcond : (pfLt pfZero e.score &&
              pfLt ((none : Option PyFloat).getD pfNegOne) e.score) = false := by
            cases hx : pfLt pfZero e.score with
            | true => exact absurd (pfLt_zero_iff.mp hx) hepos
            | false => simp
          rw [updateCluster_char]
          simp only [Option.getD_none] at hcond ⊢
          rw [hcond]
          simp only [Bool.false_eq_true, if_false]
          exact ⟨e, rfl, rfl, by rw [if_neg hepos]⟩
  · constructor
    · intro hnone
      rw [addMention_lookup_other c out e hk] at hnone
      rw [membersOf_append, if_neg (fun h2 => hk h2.symm), List.append_nil]
      exact (hinv k).1 hnone
    · intro cl hcl
      rw [addMention_lookup_other c out e hk] at hcl
      rw [membersOf_append, if_neg (fun h2 => hk h2.symm), List.append_nil]
      exact (hinv k).2 cl hcl

theorem typeInv_fold (c : List (Str × Str)) :
    ∀ (l : List Mention) (pre : List Mention) (out : List (Str × Cluster)),
      (∀ m ∈ pre ++ l, validScore m.score) → TypeInv c pre out →
      TypeInv c (pre ++ l) (l.foldl (addMention c) out) := by
  intro l
  induction l with
  | nil =>
    intro pre out hv hinv
    simpa using hinv
  | cons x rest ih =>
    intro pre out hv hinv
    simp only [List.foldl_cons]
    have hx : validScore x.score := hv x (by simp)
    have hpre : ∀ m ∈ pre, validScore m.score := fun m hm => hv m (List.mem_append_left _ hm)
    have h2 := ih (pre ++ [x]) (addMention c out x)
      (by
        intro m hm
        apply hv
        simp only [List.append_assoc, List.singleton_append] at hm
        exact hm)
      (typeInv_step c pre out x hx hpre hinv)
    simpa [List.append_assoc] using h2

/-- C5: when all mention scores are valid rationals in [0, 1], every cluster of
`build_entity_map` carries the type of the member mention with the strictly
highest score, ties keeping the earlier-processed mention's type (the earliest
member attaining the maximum). -/
theorem build_entity_map_type_policy (es : List Mention) (th : PyFloat)
    (hval : ∀ e ∈ es, validScore e.score) (k : Str) (cl : Cluster)
    (h : alookup (build_entity_map es th) k = some cl) :
    ∃ m, bestMention (membersOf (build_canonical th (es.map Mention.text)) es k) = some m ∧
      cl.type = m.type := by
  unfold build_entity_map at h
  rw [alookup_map_finalize] at h
  cases hx : alookup (es.foldl (addMention (build_canonical th (es.map Mention.text))) []) k with
  | none => rw [hx] at h; cases h
  | some cl0 =>
    rw [hx] at h
    simp only [Option.map_some'] at h
    have hinv := typeInv_fold (build_canonical th (es.map Mention.text)) es [] []
      (by simpa using hval) (typeInv_init _)
    simp only [List.nil_append] at hinv
    obtain ⟨m, hbm, htype, _⟩ := (hinv k).2 cl0 hx
    refine ⟨m, hbm, ?_⟩
    have hcl : cl = finalizeCluster cl0 := by
      injection h with h1
      exact h1.symm
    rw [hcl]
    exact htype

/-- The cluster produced by the C5 witness input. -/
def wCluster : Cluster :=
  ⟨['N', 'H', 'S'], ['M', 'I', 'S', 'C'],
    [['N', '.', 'H', '.', 'S', '.'], ['N', 'H', 'S']], 2, none⟩

/-- Witness for C5: clustering NHS (ORG, 0.9) then N.H.S. (MISC, 0.95) at a
threshold where they merge produces one cluster typed MISC, and the policy
theorem applies to it. -/
theorem build_entity_map_type_policy_witness :
    alookup (build_entity_map [mNHS, mNHS2] ⟨60, 1⟩) ['n', 'h', 's'] = some wCluster ∧
      wCluster.type = ['M', 'I', 'S', 'C'] ∧
      ∃ m, bestMention (membersOf (build_canonical ⟨60, 1⟩ ([mNHS, mNHS2].map Mention.text))
          [mNHS, mNHS2] ['n', 'h', 's']) = some m ∧ wCluster.type = m.type :=
  ⟨by decide, by decide,
    build_entity_map_type_policy [mNHS, mNHS2] ⟨60, 1⟩ (by decide) ['n', 'h', 's'] wCluster
      (by decide)⟩
